import Mathlib

/-!
Verification of core functions of the filemaker-mcp repository.

Shallow embedding conventions used throughout this file:

* Calendar dates are embedded as integers (`Int`), one unit per day.
  `date.fromisoformat` is an order-isomorphism from ISO `YYYY-MM-DD`
  strings onto day numbers, `timedelta(days=1)` is `+ 1`, and
  lexicographic comparison of ISO strings agrees with the integer
  order, so every comparison and ±1-day computation in the source
  translates verbatim.
* Python strings are embedded as `List Char` where character-level
  scanning matters (regular expressions), and as `String` elsewhere.
* pandas DataFrames are embedded as lists of rows, a row being an
  association list from column name to cell value; a missing key
  plays the role of NaN in the columns union produced by `concat`.
* `async` functions are pure: the remote call they await is passed
  in as an explicit function argument or as an explicit outcome
  sequence.
-/

namespace FMSpec

/-! ### Table cache: `compute_date_gaps` (analytics.py)

`compute_date_gaps(existing_min, existing_max, requested_min, requested_max)`
with dates as integer day numbers (None ↦ `Option.none`). -/

/-- Embedding of `compute_date_gaps` from
`src/filemaker_mcp/tools/analytics.py`.  A bound of `none` is an
absent (`None`) bound; dates are day numbers. -/
def compute_date_gaps (existing_min existing_max requested_min requested_max : Option Int) :
    List (Option Int × Option Int) :=
  match existing_min, existing_max with
  | some e_min, some e_max =>
    let left : List (Option Int × Option Int) :=
      match requested_min with
      | some r_min => if r_min < e_min then [(some r_min, some (e_min - 1))] else []
      | none => [(none, some (e_min - 1))]
    let right : List (Option Int × Option Int) :=
      match requested_max with
      | some r_max => if r_max > e_max then [(some (e_max + 1), some r_max)] else []
      | none => [(some (e_max + 1), none)]
    left ++ right
  | _, _ =>
    -- No existing cache — fetch the full requested range
    [(requested_min, requested_max)]

/-- A day `d` lies in the (possibly open-ended) range `[lo, hi]`. -/
def inRange (lo hi : Option Int) (d : Int) : Prop :=
  (∀ l ∈ lo, l ≤ d) ∧ (∀ h ∈ hi, d ≤ h)

theorem inRange_some_some {a b d : Int} :
    inRange (some a) (some b) d ↔ a ≤ d ∧ d ≤ b := by
  constructor
  · rintro ⟨h1, h2⟩
    exact ⟨h1 a rfl, h2 b rfl⟩
  · rintro ⟨h1, h2⟩
    exact ⟨by simpa using h1, by simpa using h2⟩

/-- The left-gap pair emitted for an existing lower bound `e_min`. -/
def leftGap (rMin : Option Int) (e_min : Int) : Option Int × Option Int :=
  (rMin, some (e_min - 1))
def rightGap (rMax : Option Int) (e_max : Int) : Option Int × Option Int :=
  (some (e_max + 1), rMax)

lemma cdg_shape (e_min e_max : Int) (rMin rMax : Option Int) :
    ∀ p ∈ compute_date_gaps (some e_min) (some e_max) rMin rMax,
      p = leftGap rMin e_min ∨ p = rightGap rMax e_max := by
  intro p hp
  cases rMin <;> cases rMax <;>
    (revert hp
     simp only [compute_date_gaps, leftGap, rightGap]
     intro hp
     rcases List.mem_append.mp hp with h | h <;>
       ((try split at h) <;> simp_all))

lemma cdg_left_mem_iff (e_min e_max : Int) (rMin rMax : Option Int) :
    leftGap rMin e_min ∈ compute_date_gaps (some e_min) (some e_max) rMin rMax ↔
      (rMin = none ∨ ∃ r, rMin = some r ∧ r < e_min) := by
  cases rMin with
  | none =>
    simp only [compute_date_gaps, leftGap]
    simp [List.mem_append]
  | some rm =>
    by_cases h : rm < e_min
    · simp only [compute_date_gaps, leftGap]
      rw [if_pos h]
      simp [List.mem_append, h]
    · constructor
      · intro hmem
        exfalso
        revert hmem
        simp only [compute_date_gaps, leftGap]
        rw [if_neg h]
        cases rMax with
        | none => simp [Prod.ext_iff]
        | some rM =>
          by_cases h2 : rM > e_max
          · simp [h2, Prod.ext_iff]
            omega
          · simp [h2]
      · rintro (h1 | ⟨r, hr, hlt⟩)
        · exact absurd h1 (by simp)
        · cases hr
          exact absurd hlt h

lemma cdg_right_mem_iff (e_min e_max : Int) (rMin rMax : Option Int) :
    rightGap rMax e_max ∈ compute_date_gaps (some e_min) (some e_max) rMin rMax ↔
      (rMax = none ∨ ∃ r, rMax = some r ∧ r > e_max) := by
  cases rMax with
  | none =>
    constructor
    · intro _
      exact Or.inl rfl
    · intro _
      cases rMin with
      | none =>
        simp only [compute_date_gaps, rightGap]
        simp [List.mem_append]
      | some rm =>
        simp only [compute_date_gaps, rightGap]
        by_cases h : rm < e_min <;> simp [h, List.mem_append]
  | some rM =>
    by_cases h2 : rM > e_max
    · constructor
      · intro _
        exact Or.inr ⟨rM, rfl, h2⟩
      · intro _
        cases rMin with
        | none =>
          simp only [compute_date_gaps, rightGap]
          simp [h2, List.mem_append]
        | some rm =>
          simp only [compute_date_gaps, rightGap]
          by_cases h : rm < e_min <;> simp [h, h2, List.mem_append]
    · constructor
      · intro hmem
        exfalso
        revert hmem
        simp only [compute_date_gaps, rightGap]
        cases rMin with
        | none =>
          simp [h2, Prod.ext_iff]
        | some rm =>
          by_cases h : rm < e_min <;> simp [h, h2, Prod.ext_iff] <;> omega
      · rintro (h1 | ⟨r, hr, hgt⟩)
        · exact absurd h1 (by simp)
        · cases hr
          exact absurd hgt h2

lemma cdg_covered_empty (e_min e_max rm rM : Int) (h1 : e_min ≤ rm) (h2 : rM ≤ e_max) :
    compute_date_gaps (some e_min) (some e_max) (some rm) (some rM) = [] := by
  simp only [compute_date_gaps]
  rw [if_neg (by omega), if_neg (by omega)]
  rfl

lemma cdg_cover (e_min e_max : Int) (rMin rMax : Option Int) (d : Int)
    (hd : inRange rMin rMax d) :
    (e_min ≤ d ∧ d ≤ e_max) ∨
      ∃ p ∈ compute_date_gaps (some e_min) (some e_max) rMin rMax, inRange p.1 p.2 d := by
  rcases hd with ⟨hl, hr⟩
  by_cases hdl : d < e_min
  · refine Or.inr ⟨leftGap rMin e_min, ?_, ?_⟩
    · rw [cdg_left_mem_iff]
      cases rMin with
      | none => exact Or.inl rfl
      | some rm => exact Or.inr ⟨rm, rfl, lt_of_le_of_lt (hl rm rfl) hdl⟩
    · refine ⟨hl, ?_⟩
      intro h hh
      simp only [leftGap] at hh
      cases hh
      omega
  · by_cases hdr : e_max < d
    · refine Or.inr ⟨rightGap rMax e_max, ?_, ?_⟩
      · rw [cdg_right_mem_iff]
        cases rMax with
        | none => exact Or.inl rfl
        | some rM => exact Or.inr ⟨rM, rfl, lt_of_lt_of_le hdr (hr rM rfl)⟩
      · refine ⟨?_, hr⟩
        intro l hh
        simp only [rightGap] at hh
        cases hh
        omega
    · exact Or.inl ⟨by omega, by omega⟩

lemma cdg_no_overlap (e_min e_max : Int) (rMin rMax : Option Int) :
    ∀ p ∈ compute_date_gaps (some e_min) (some e_max) rMin rMax,
      ∀ d : Int, inRange p.1 p.2 d → ¬ (e_min ≤ d ∧ d ≤ e_max) := by
  intro p hp d hd
  rcases cdg_shape e_min e_max rMin rMax p hp with h | h
  · subst h
    rcases hd with ⟨_, h2⟩
    have := h2 (e_min - 1) rfl
    omega
  · subst h
    rcases hd with ⟨h1, _⟩
    have := h1 (e_max + 1) rfl
    omega

lemma cdg_bounded_ordered (e_min e_max : Int) (rMin rMax : Option Int) :
    ∀ p ∈ compute_date_gaps (some e_min) (some e_max) rMin rMax,
      ∀ a b : Int, p = (some a, some b) → a ≤ b := by
  intro p hp a b hab
  subst hab
  cases rMin <;> cases rMax <;>
    (revert hp
     simp only [compute_date_gaps]
     intro hp
     rcases List.mem_append.mp hp with h | h <;>
       ((try split at h) <;> simp_all [Prod.ext_iff] <;> omega)
    )

/-- C1: `compute_date_gaps` — with no existing cache the requested range is
returned unchanged; otherwise a left gap ending at `eMin − 1` is emitted
exactly when `rMin` is absent or `rMin < eMin`, a right gap starting at
`eMax + 1` exactly when `rMax` is absent or `rMax > eMax`, and the result is
empty when the request is fully covered; the returned ranges together with
the existing range cover the requested range, no returned range overlaps an
existing day, and every fully bounded returned pair has `min ≤ max`. -/
theorem compute_date_gaps_correct :
    (∀ rMin rMax eMax : Option Int,
      compute_date_gaps none eMax rMin rMax = [(rMin, rMax)] ∧
      compute_date_gaps eMax none rMin rMax = [(rMin, rMax)]) ∧
    (∀ (e_min e_max : Int) (rMin rMax : Option Int),
      (leftGap rMin e_min ∈ compute_date_gaps (some e_min) (some e_max) rMin rMax ↔
        (rMin = none ∨ ∃ r, rMin = some r ∧ r < e_min)) ∧
      (rightGap rMax e_max ∈ compute_date_gaps (some e_min) (some e_max) rMin rMax ↔
        (rMax = none ∨ ∃ r, rMax = some r ∧ r > e_max)) ∧
      (∀ p ∈ compute_date_gaps (some e_min) (some e_max) rMin rMax,
        p = leftGap rMin e_min ∨ p = rightGap rMax e_max) ∧
      (∀ rm rM, rMin = some rm → rMax = some rM → e_min ≤ rm → rM ≤ e_max →
        compute_date_gaps (some e_min) (some e_max) rMin rMax = []) ∧
      (∀ d : Int, inRange rMin rMax d →
        (e_min ≤ d ∧ d ≤ e_max) ∨
          ∃ p ∈ compute_date_gaps (some e_min) (some e_max) rMin rMax,
            inRange p.1 p.2 d) ∧
      (∀ p ∈ compute_date_gaps (some e_min) (some e_max) rMin rMax,
        ∀ d : Int, inRange p.1 p.2 d → ¬ (e_min ≤ d ∧ d ≤ e_max)) ∧
      (∀ p ∈ compute_date_gaps (some e_min) (some e_max) rMin rMax,
        ∀ a b : Int, p = (some a, some b) → a ≤ b)) := by
  refine ⟨?_, ?_⟩
  · intro rMin rMax eMax
    refine ⟨rfl, ?_⟩
    cases eMax <;> rfl
  · intro e_min e_max rMin rMax
    refine ⟨cdg_left_mem_iff e_min e_max rMin rMax,
      cdg_right_mem_iff e_min e_max rMin rMax,
      cdg_shape e_min e_max rMin rMax, ?_,
      cdg_cover e_min e_max rMin rMax,
      cdg_no_overlap e_min e_max rMin rMax,
      cdg_bounded_ordered e_min e_max rMin rMax⟩
    intro rm rM h1 h2 h3 h4
    subst h1
    subst h2
    exact cdg_covered_empty e_min e_max rm rM h3 h4

/-! ### Query engine: gap list with today-refresh (query.py `query_records`) -/

/-- Embedding of the gap-list construction inside `query_records`
(`src/filemaker_mcp/tools/query.py`, the cache-check block): base gaps come
from `compute_date_gaps` on the cache entry bounds when an entry exists
(the raw requested range otherwise); then the today-refresh rule removes any
`(today, today)` pair and appends one whenever an entry exists and the
request touches today (`req_max` absent or `req_max >= today`). -/
def gapsToFetch (existing : Option (Option Int × Option Int))
    (req_min req_max : Option Int) (today : Int) :
    List (Option Int × Option Int) :=
  let gaps :=
    match existing with
    | some (e_min, e_max) => compute_date_gaps e_min e_max req_min req_max
    | none => [(req_min, req_max)]
  let touches_today :=
    match req_max with
    | none => true
    | some r => decide (today ≤ r)
  if existing.isSome && touches_today then
    (gaps.filter (fun g => g ≠ (some today, some today))) ++ [(some today, some today)]
  else gaps

lemma count_filter_ne_self {α : Type} [BEq α] [LawfulBEq α] [DecidableEq α] (x : α) (l : List α) :
    (l.filter (fun g => g ≠ x)).count x = 0 := by
  rw [List.count_eq_zero]
  intro h
  have hx := (List.mem_filter.mp h).2
  simp at hx

theorem gapsToFetch_today (e_min e_max req_min req_max : Option Int) (today : Int)
    (htouch : req_max = none ∨ ∃ r, req_max = some r ∧ today ≤ r) :
    (gapsToFetch (some (e_min, e_max)) req_min req_max today).count
        (some today, some today) = 1 ∧
    (some today, some today) ∈ gapsToFetch (some (e_min, e_max)) req_min req_max today ∧
    ∀ g, g ≠ ((some today, some today) : Option Int × Option Int) →
      (g ∈ gapsToFetch (some (e_min, e_max)) req_min req_max today ↔
        g ∈ compute_date_gaps e_min e_max req_min req_max) := by
  have hg : gapsToFetch (some (e_min, e_max)) req_min req_max today =
      ((compute_date_gaps e_min e_max req_min req_max).filter
        (fun g => g ≠ (some today, some today))) ++ [(some today, some today)] := by
    rcases htouch with h | ⟨r, hr, hle⟩
    · subst h
      simp [gapsToFetch]
    · subst hr
      simp [gapsToFetch, hle]
  rw [hg]
  refine ⟨?_, ?_, ?_⟩
  · rw [List.count_append]
    have h0 := count_filter_ne_self ((some today, some today) : Option Int × Option Int)
      (compute_date_gaps e_min e_max req_min req_max)
    simpa using h0
  · simp
  · intro g hgne
    simp [List.mem_append, List.mem_filter, hgne]

/-- C4: when a cache entry exists and the requested range touches today
(requested max absent or at least today), the fetched gap list contains
exactly one `(today, today)` pair — also when today is already covered by
the cached bounds — and all other gaps are exactly those of
`compute_date_gaps`. -/
theorem query_records_today_refresh (e_min e_max req_min req_max : Option Int)
    (today : Int)
    (htouch : req_max = none ∨ ∃ r, req_max = some r ∧ today ≤ r) :
    (gapsToFetch (some (e_min, e_max)) req_min req_max today).count
        (some today, some today) = 1 ∧
    (some today, some today) ∈ gapsToFetch (some (e_min, e_max)) req_min req_max today ∧
    ∀ g, g ≠ ((some today, some today) : Option Int × Option Int) →
      (g ∈ gapsToFetch (some (e_min, e_max)) req_min req_max today ↔
        g ∈ compute_date_gaps e_min e_max req_min req_max) :=
  gapsToFetch_today e_min e_max req_min req_max today htouch

/-- C4 witness: cached bounds `[0, 10]`, request `[3, 10]`, today `5` — the
request is fully covered yet the forced `(5, 5)` refresh gap appears exactly
once (the base gap list being empty). -/
theorem query_records_today_refresh_witness :
    (gapsToFetch (some (some 0, some 10)) (some 3) (some 10) 5).count
        (some 5, some 5) = 1 ∧
    (some 5, some 5) ∈ gapsToFetch (some (some 0, some 10)) (some 3) (some 10) 5 ∧
    ∀ g, g ≠ ((some 5, some 5) : Option Int × Option Int) →
      (g ∈ gapsToFetch (some (some 0, some 10)) (some 3) (some 10) 5 ↔
        g ∈ compute_date_gaps (some 0) (some 10) (some 3) (some 10)) :=
  query_records_today_refresh (some 0) (some 10) (some 3) (some 10) 5
    (Or.inr ⟨10, rfl, by decide⟩)

/-! ### Remote client retry: `_retry_with_backoff` (schema.py) -/

/-- Outcome of one attempt of the wrapped async call. -/
inductive CallOutcome (α : Type) where
  | ok (v : α)
  | connError
  | timeoutError
  | authError
  | notFoundError
deriving DecidableEq

/-- `_RETRYABLE_ERRORS = (ConnectionError, httpx.TimeoutException)` -/
def CallOutcome.retryable {α : Type} : CallOutcome α → Bool
  | .connError => true
  | .timeoutError => true
  | _ => false

/-- What `_retry_with_backoff` ends in. -/
inductive RetryResult (α : Type) where
  | value (v : α)
  | raisedAuth
  | raisedNotFound
  | exhausted
deriving DecidableEq

/-- The `for attempt in range(max_retries + 1)` loop of `_retry_with_backoff`
(schema.py): `rem` iterations remain, the current one is `attempt`.  Returns
the outcome together with the list of back-off delays slept. -/
def retryGo {α : Type} (fn : Nat → CallOutcome α) (max_retries : Nat) (base_delay : ℚ) :
    Nat → Nat → RetryResult α × List ℚ
  | _, 0 => (.exhausted, [])
  | attempt, rem + 1 =>
    match fn attempt with
    | .ok v => (.value v, [])
    | .authError => (.raisedAuth, [])
    | .notFoundError => (.raisedNotFound, [])
    | .connError =>
      let r := retryGo fn max_retries base_delay (attempt + 1) rem
      if attempt < max_retries then (r.1, base_delay * 2 ^ attempt :: r.2) else r
    | .timeoutError =>
      let r := retryGo fn max_retries base_delay (attempt + 1) rem
      if attempt < max_retries then (r.1, base_delay * 2 ^ attempt :: r.2) else r

/-- Embedding of `_retry_with_backoff(fn, max_retries, base_delay)`. -/
def retry_with_backoff {α : Type} (fn : Nat → CallOutcome α) (max_retries : Nat)
    (base_delay : ℚ) : RetryResult α × List ℚ :=
  retryGo fn max_retries base_delay 0 (max_retries + 1)

lemma retryGo_exhaust {α : Type} (fn : Nat → CallOutcome α) (maxR : Nat) (base : ℚ) :
    ∀ n attempt, attempt + n = maxR + 1 →
      (∀ i, attempt ≤ i → i ≤ maxR → (fn i).retryable = true) →
      retryGo fn maxR base attempt n =
        (.exhausted, (List.range (n - 1)).map (fun j => base * 2 ^ (attempt + j))) := by
  intro n
  induction n with
  | zero => intro attempt _ _; simp [retryGo]
  | succ m ih =>
    intro attempt hsum hretry
    have hat : attempt ≤ maxR := by omega
    have hr := hretry attempt le_rfl hat
    cases hfn : fn attempt with
    | ok v => rw [hfn] at hr; simp [CallOutcome.retryable] at hr
    | authError => rw [hfn] at hr; simp [CallOutcome.retryable] at hr
    | notFoundError => rw [hfn] at hr; simp [CallOutcome.retryable] at hr
    | connError =>
      have hrec := ih (attempt + 1) (by omega)
        (fun i h1 h2 => hretry i (by omega) h2)
      simp only [retryGo, hfn, hrec]
      cases m with
      | zero =>
        have : ¬ attempt < maxR := by omega
        simp [this]
      | succ k =>
        have hlt : attempt < maxR := by omega
        simp only [if_pos hlt]
        congr 1
        simp only [Nat.succ_sub_one]
        rw [List.range_succ_eq_map]
        simp [Function.comp, pow_succ, pow_add]
        intro a _
        left
        ring
    | timeoutError =>
      have hrec := ih (attempt + 1) (by omega)
        (fun i h1 h2 => hretry i (by omega) h2)
      simp only [retryGo, hfn, hrec]
      cases m with
      | zero =>
        have : ¬ attempt < maxR := by omega
        simp [this]
      | succ k =>
        have hlt : attempt < maxR := by omega
        simp only [if_pos hlt]
        congr 1
        simp only [Nat.succ_sub_one]
        rw [List.range_succ_eq_map]
        simp [Function.comp, pow_succ, pow_add]
        intro a _
        left
        ring


/-- C8: retryable outcomes (connection failures and network timeouts) are
retried with exponentially doubling delays — `[1, 2, 4]` seconds at the
defaults of one-second base delay and three retries, `base * 2 ^ i` in
general — authentication and not-found errors are re-raised on the first
attempt with no retry and no delay, and exhausting the retries yields no
result (`None`) rather than an error. -/
theorem retry_with_backoff_policy :
    (∀ (α : Type) (fn : Nat → CallOutcome α),
      (∀ i, i ≤ 3 → (fn i).retryable = true) →
        retry_with_backoff fn 3 1 = (.exhausted, [1, 2, 4])) ∧
    (∀ (α : Type) (fn : Nat → CallOutcome α) (maxR : Nat) (base : ℚ),
      (∀ i, i ≤ maxR → (fn i).retryable = true) →
        retry_with_backoff fn maxR base =
          (.exhausted, (List.range maxR).map (fun i => base * 2 ^ i))) ∧
    (∀ (α : Type) (fn : Nat → CallOutcome α) (maxR : Nat) (base : ℚ),
      fn 0 = .authError → retry_with_backoff fn maxR base = (.raisedAuth, [])) ∧
    (∀ (α : Type) (fn : Nat → CallOutcome α) (maxR : Nat) (base : ℚ),
      fn 0 = .notFoundError → retry_with_backoff fn maxR base = (.raisedNotFound, [])) := by
  have hgen : ∀ (α : Type) (fn : Nat → CallOutcome α) (maxR : Nat) (base : ℚ),
      (∀ i, i ≤ maxR → (fn i).retryable = true) →
        retry_with_backoff fn maxR base =
          (.exhausted, (List.range maxR).map (fun i => base * 2 ^ i)) := by
    intro α fn maxR base h
    have := retryGo_exhaust fn maxR base (maxR + 1) 0 (by omega)
      (fun i _ h2 => h i h2)
    rw [retry_with_backoff, this]
    simp
  refine ⟨?_, hgen, ?_, ?_⟩
  · intro α fn h
    rw [hgen α fn 3 1 h]
    norm_num [List.range_succ]
  · intro α fn maxR base h0
    rw [retry_with_backoff]
    show retryGo fn maxR base 0 (maxR + 1) = _
    simp [retryGo, h0]
  · intro α fn maxR base h0
    rw [retry_with_backoff]
    show retryGo fn maxR base 0 (maxR + 1) = _
    simp [retryGo, h0]


/-! ### Remote client error classification: `_handle_request_error` (auth.py) -/

/-- Decoded JSON values, the result of `response.json()`. -/
inductive Json where
  | null
  | bool (b : Bool)
  | num (n : Int)
  | str (s : String)
  | arr (xs : List Json)
  | obj (fields : List (String × Json))

/-- Key lookup in a decoded JSON object; `json.loads` keeps the last
duplicate of a key, so the reversed list is searched. -/
def jsonLookup (fields : List (String × Json)) (key : String) : Option Json :=
  (fields.reverse.find? (fun p => p.1 = key)).map Prod.snd

mutual
/-- Python `str(x)` on a decoded JSON value.  Atoms are rendered exactly
as Python renders them; for nested containers the single-quoted rendering
below matches Python `repr` on values without quotes or escapes in their
strings (the claims exercise atomic `error.message` values only). -/
def pyStr : Json → String
  | .null => "None"
  | .bool true => "True"
  | .bool false => "False"
  | .num n => toString n
  | .str s => s
  | .arr xs => "[" ++ pyCommaSep xs ++ "]"
  | .obj fields => "\x7b" ++ pyCommaSepPairs fields ++ "\x7d"

def pyRepr : Json → String
  | .str s => "'" ++ s ++ "'"
  | .null => "None"
  | .bool true => "True"
  | .bool false => "False"
  | .num n => toString n
  | .arr xs => "[" ++ pyCommaSep xs ++ "]"
  | .obj fields => "\x7b" ++ pyCommaSepPairs fields ++ "\x7d"

def pyCommaSep : List Json → String
  | [] => ""
  | [x] => pyRepr x
  | x :: xs => pyRepr x ++ ", " ++ pyCommaSep xs

def pyCommaSepPairs : List (String × Json) → String
  | [] => ""
  | [(k, v)] => "'" ++ k ++ "': " ++ pyRepr v
  | (k, v) :: xs => "'" ++ k ++ "': " ++ pyRepr v ++ ", " ++ pyCommaSepPairs xs
end

/-- The exceptions `_handle_request_error` receives: an `httpx.ConnectError`
or an `httpx.HTTPStatusError` with the response status, raw body text and
the body as decoded JSON (`none` when `response.json()` raises). -/
inductive HttpExc where
  | connectError
  | statusError (status : Nat) (bodyText : String) (bodyJson : Option Json)

/-- The typed errors the client raises: `ConnectionError`,
`PermissionError`, `ValueError` (404) and `ValueError` (other status). -/
inductive FMError where
  | connection (msg : String)
  | authentication (msg : String)
  | notFound (msg : String)
  | request (msg : String)
deriving DecidableEq

/-- The `fm_error_msg` extraction of `_handle_request_error` (auth.py):
`error.message` from the decoded body when the body is a JSON object with
an `error` object carrying a `message`; the first 500 characters of the
raw body when `response.json()` raises; the empty string otherwise. -/
def extract_fm_error_msg (bodyText : String) (bodyJson : Option Json) : String :=
  match bodyJson with
  | none => String.mk (bodyText.toList.take 500)
  | some (.obj fields) =>
    match jsonLookup fields "error" with
    | some (.obj efields) =>
      match jsonLookup efields "message" with
      | some m => pyStr m
      | none => ""
    | _ => ""
  | some _ => ""

/-- Embedding of `FMODataClient._handle_request_error` (auth.py). `host`,
`user` come from settings, `path` and `hint` from the call site. -/
def handle_request_error (host user path hint : String) (e : HttpExc) : FMError :=
  match e with
  | .connectError =>
    .connection ("Cannot connect to FileMaker Server at " ++ host ++
      ". Verify the server is running and accessible.")
  | .statusError status bodyText bodyJson =>
    if status = 401 then
      .authentication ("Authentication failed for FM user '" ++ user ++
        "'. Check credentials and extended privileges (fmodata).")
    else if status = 404 then
      .notFound ("Resource not found: '" ++ path ++ "'. Verify the " ++ hint ++
        " and that it's exposed via OData.")
    else
      let fm := extract_fm_error_msg bodyText bodyJson
      .request ("FileMaker OData error (" ++ toString status ++ "): " ++
        (if fm = "" then "Status " ++ toString status else fm))

/-- Modelled from the spec (§4.2): the body of a non-auth 4xx/5xx request
error carries `error.message` from the JSON error object when present,
otherwise the first 500 characters of the body.  Used only to compare the
spec's wording against the code. -/
def specC7RequestMessage (bodyText : String) (bodyJson : Option Json) : String :=
  match bodyJson with
  | some (.obj fields) =>
    match jsonLookup fields "error" with
    | some (.obj efields) =>
      match jsonLookup efields "message" with
      | some m => pyStr m
      | none => String.mk (bodyText.toList.take 500)
    | _ => String.mk (bodyText.toList.take 500)
  | _ => String.mk (bodyText.toList.take 500)

/-- C7 counterexample: a 500 response whose body is valid JSON (`\x7b\x7d`)
without an `error.message` produces the message `Status 500`, not the first
500 characters of the body as the claim states. -/
theorem handle_request_error_cex :
    handle_request_error ("host") ("user") ("path") ("table name")
        (.statusError 500 ("\x7b\x7d") (some (.obj []))) =
      .request ("FileMaker OData error (500): Status 500") ∧
    specC7RequestMessage ("\x7b\x7d") (some (.obj [])) = "\x7b\x7d" ∧
    ("FileMaker OData error (500): Status 500" : String) ≠
      "FileMaker OData error (500): " ++ specC7RequestMessage ("\x7b\x7d") (some (.obj [])) := by
  refine ⟨rfl, rfl, ?_⟩
  decide

/-- C7 (amended): a connect failure raises a connection error, 401 an
authentication error, 404 a not-found error; any other status raises a
request error whose message carries `error.message` when the body decodes
to a JSON object carrying one, the first 500 characters of the body when
the body fails to decode as JSON, and the literal `Status <code>` when the
body decodes as JSON but no `error.message` is extractable. -/
theorem handle_request_error_amended (host user path hint : String) :
    (handle_request_error host user path hint .connectError =
      .connection ("Cannot connect to FileMaker Server at " ++ host ++
        ". Verify the server is running and accessible.")) ∧
    (∀ t j, handle_request_error host user path hint (.statusError 401 t j) =
      .authentication ("Authentication failed for FM user '" ++ user ++
        "'. Check credentials and extended privileges (fmodata).")) ∧
    (∀ t j, handle_request_error host user path hint (.statusError 404 t j) =
      .notFound ("Resource not found: '" ++ path ++ "'. Verify the " ++ hint ++
        " and that it's exposed via OData.")) ∧
    (∀ s t fields efields m, s ≠ 401 → s ≠ 404 →
      jsonLookup fields "error" = some (.obj efields) →
      jsonLookup efields "message" = some (.str m) → m ≠ "" →
      handle_request_error host user path hint (.statusError s t (some (.obj fields))) =
        .request ("FileMaker OData error (" ++ toString s ++ "): " ++ m)) ∧
    (∀ s t, s ≠ 401 → s ≠ 404 → String.mk (t.toList.take 500) ≠ "" →
      handle_request_error host user path hint (.statusError s t none) =
        .request ("FileMaker OData error (" ++ toString s ++ "): " ++
          String.mk (t.toList.take 500))) ∧
    (∀ s t fields, s ≠ 401 → s ≠ 404 →
      (∀ efields, jsonLookup fields "error" = some (.obj efields) →
        jsonLookup efields "message" = none) →
      (∀ v, jsonLookup fields "error" = some v → ∃ ef, v = .obj ef) →
      handle_request_error host user path hint (.statusError s t (some (.obj fields))) =
        .request ("FileMaker OData error (" ++ toString s ++ "): " ++
          ("Status " ++ toString s))) := by
  refine ⟨rfl, ?_, ?_, ?_, ?_, ?_⟩
  · intro t j
    simp [handle_request_error]
  · intro t j
    simp [handle_request_error]
  · intro s t fields efields m h1 h2 herr hmsg hne
    simp only [handle_request_error, if_neg h1, if_neg h2]
    simp [extract_fm_error_msg, herr, hmsg, pyStr, hne]
  · intro s t h1 h2 hne
    simp only [handle_request_error, if_neg h1, if_neg h2, extract_fm_error_msg]
    rw [if_neg hne]
  · intro s t fields h1 h2 hmsg hobj
    simp only [handle_request_error, if_neg h1, if_neg h2]
    have : extract_fm_error_msg t (some (.obj fields)) = "" := by
      simp only [extract_fm_error_msg]
      cases herr : jsonLookup fields "error" with
      | none => rfl
      | some v =>
        rcases hobj v herr with ⟨ef, rfl⟩
        have hm := hmsg ef herr
        simp [hm]
    rw [this]
    rw [if_pos rfl]

/-! ### Table cache: frames, `_enforce_row_limit`, `merge_into_table_cache`
(analytics.py) -/

/-- A DataFrame row: association list from column name to cell value.
A key that is absent plays the role of NaN. -/
abbrev Row := List (String × String)

/-- A DataFrame: its rows in order. -/
abbrev Frame := List Row

/-- Cell access, `none` for a missing (NaN) cell. -/
def getCell (r : Row) (c : String) : Option String :=
  (r.find? (fun p => p.1 = c)).map Prod.snd

/-- The columns present in a frame (`df.columns` of the concatenation is
the union of the concatenated frames' columns). -/
def frameCols (f : Frame) : List String :=
  f.foldr (fun r acc => r.map Prod.fst ++ acc) []

/-- The primary-key value of a row (`none` = NaN; pandas `drop_duplicates`
treats NaN keys as equal to each other). -/
def pkOf (pk : String) (r : Row) : Option String := getCell r pk

/-- `combined.drop_duplicates(subset=[pk_field], keep="last")`: a row is
kept when no later row carries the same key; order of kept rows preserved. -/
def drop_duplicates_keep_last (pk : String) : Frame → Frame
  | [] => []
  | r :: rest =>
    if rest.any (fun r2 => pkOf pk r2 = pkOf pk r) then
      drop_duplicates_keep_last pk rest
    else
      r :: drop_duplicates_keep_last pk rest

/-- Descending date order used by `sort_values(date_field, ascending=False)`:
`a` sorts no later than `b`; missing dates (NaN) sort last. -/
def dateGe : Option String → Option String → Bool
  | none, none => true
  | none, some _ => false
  | some _, none => true
  | some x, some y => decide (y ≤ x)

/-- Row order for the date sort. -/
def rowDateGe (date_field : String) (x y : Row) : Prop :=
  dateGe (getCell x date_field) (getCell y date_field) = true

instance rowDateGe.decRel (date_field : String) : DecidableRel (rowDateGe date_field) :=
  fun x y => instDecidableEqBool _ _

def MAX_ROWS_PER_TABLE : Nat := 50000

/-- Embedding of `_enforce_row_limit(df, date_field, table)` (analytics.py);
the `table` argument is used only for logging and is dropped. -/
def enforce_row_limit (df : Frame) (date_field : String) : Frame :=
  if df.length ≤ MAX_ROWS_PER_TABLE then df
  else if date_field ≠ "" && decide (date_field ∈ frameCols df) then
    (df.insertionSort (rowDateGe date_field)).take MAX_ROWS_PER_TABLE
  else
    df.drop (df.length - MAX_ROWS_PER_TABLE)

-- basic lemmas

lemma drop_dup_subset (pk : String) : ∀ f : Frame, ∀ r ∈ drop_duplicates_keep_last pk f, r ∈ f := by
  intro f
  induction f with
  | nil => simp [drop_duplicates_keep_last]
  | cons a t ih =>
    intro r hr
    simp only [drop_duplicates_keep_last] at hr
    split at hr
    · exact List.mem_cons_of_mem a (ih r hr)
    · rcases List.mem_cons.mp hr with h | h
      · exact h ▸ List.mem_cons_self a t
      · exact List.mem_cons_of_mem a (ih r h)

lemma drop_dup_keys_nodup (pk : String) :
    ∀ f : Frame, ((drop_duplicates_keep_last pk f).map (pkOf pk)).Nodup := by
  intro f
  induction f with
  | nil => simp [drop_duplicates_keep_last]
  | cons a t ih =>
    simp only [drop_duplicates_keep_last]
    split
    · exact ih
    · rename_i hno
      simp only [List.map_cons, List.nodup_cons]
      refine ⟨?_, ih⟩
      intro hmem
      rcases List.mem_map.mp hmem with ⟨r, hr, hkey⟩
      have hrt := drop_dup_subset pk t r hr
      have : t.any (fun r2 => pkOf pk r2 = pkOf pk a) = true :=
        List.any_eq_true.mpr ⟨r, hrt, by simp [hkey]⟩
      simp [this] at hno

/-- The last row of `f` carrying key `k`. -/
def lastWithKey (pk : String) (k : Option String) (f : Frame) : Option Row :=
  (f.filter (fun r => pkOf pk r = k)).getLast?

lemma getLast?_cons_ne_nil {α : Type} (a : α) (l : List α) (h : l ≠ []) :
    (a :: l).getLast? = l.getLast? := by
  cases l with
  | nil => exact absurd rfl h
  | cons b t => exact List.getLast?_cons_cons

lemma drop_dup_last_occurrence (pk : String) :
    ∀ f : Frame, ∀ r ∈ drop_duplicates_keep_last pk f,
      lastWithKey pk (pkOf pk r) f = some r := by
  intro f
  induction f with
  | nil => simp [drop_duplicates_keep_last]
  | cons a t ih =>
    intro r hr
    simp only [drop_duplicates_keep_last] at hr
    by_cases hdup : t.any (fun r2 => pkOf pk r2 = pkOf pk a) = true
    · rw [if_pos hdup] at hr
      have hlast := ih r hr
      simp only [lastWithKey]
      by_cases hk : pkOf pk a = pkOf pk r
      · rw [List.filter_cons_of_pos (by simp [hk])]
        have hrmem : r ∈ t.filter (fun r2 => pkOf pk r2 = pkOf pk r) :=
          List.mem_filter.mpr ⟨drop_dup_subset pk t r hr, by simp⟩
        rw [getLast?_cons_ne_nil]
        · exact hlast
        · intro hnil
          rw [hnil] at hrmem
          exact List.not_mem_nil r hrmem
      · rw [List.filter_cons_of_neg (by simp [hk])]
        exact hlast
    · rw [if_neg hdup] at hr
      rcases List.mem_cons.mp hr with h | h
      · subst h
        simp only [lastWithKey]
        rw [List.filter_cons_of_pos (by simp)]
        have hfilt : t.filter (fun r2 => pkOf pk r2 = pkOf pk r) = [] := by
          rw [List.filter_eq_nil_iff]
          intro x hx
          simp only [decide_eq_true_eq]
          intro hcontra
          exact hdup (List.any_eq_true.mpr ⟨x, hx, by simp [hcontra]⟩)
        rw [hfilt]
        rfl
      · have hlast := ih r h
        have hrk : pkOf pk a ≠ pkOf pk r := by
          intro hcontra
          have hrt := drop_dup_subset pk t r h
          exact hdup (List.any_eq_true.mpr ⟨r, hrt, by simp [hcontra]⟩)
        simp only [lastWithKey]
        rw [List.filter_cons_of_neg (by simp [hrk])]
        exact hlast


lemma dateGe_total (a b : Option String) : dateGe a b = true ∨ dateGe b a = true := by
  cases a <;> cases b <;> simp [dateGe]
  exact le_total _ _

lemma dateGe_trans (a b c : Option String) (h1 : dateGe a b = true) (h2 : dateGe b c = true) :
    dateGe a c = true := by
  cases a <;> cases b <;> cases c <;> simp_all [dateGe]
  exact le_trans h2 h1

instance rowDateGe.isTotal (d : String) : IsTotal Row (rowDateGe d) :=
  ⟨fun x y => dateGe_total (getCell x d) (getCell y d)⟩

instance rowDateGe.isTrans (d : String) : IsTrans Row (rowDateGe d) :=
  ⟨fun x y z h1 h2 => dateGe_trans _ _ _ h1 h2⟩

lemma enforce_eq_of_le (df : Frame) (d : String) (h : df.length ≤ MAX_ROWS_PER_TABLE) :
    enforce_row_limit df d = df := by
  rw [enforce_row_limit, if_pos h]

lemma enforce_length (df : Frame) (d : String) :
    (enforce_row_limit df d).length ≤ MAX_ROWS_PER_TABLE ∧
    (df.length > MAX_ROWS_PER_TABLE → (enforce_row_limit df d).length = MAX_ROWS_PER_TABLE) := by
  by_cases h : df.length ≤ MAX_ROWS_PER_TABLE
  · rw [enforce_eq_of_le df d h]
    exact ⟨h, by omega⟩
  · simp only [enforce_row_limit, if_neg h]
    split
    · constructor
      · rw [List.length_take]
        omega
      · intro _
        rw [List.length_take, (List.perm_insertionSort (rowDateGe d) df).length_eq]
        omega
    · constructor
      · rw [List.length_drop]
        omega
      · intro _
        rw [List.length_drop]
        omega

lemma enforce_subset (df : Frame) (d : String) :
    ∀ r ∈ enforce_row_limit df d, r ∈ df := by
  intro r hr
  by_cases h : df.length ≤ MAX_ROWS_PER_TABLE
  · rw [enforce_eq_of_le df d h] at hr
    exact hr
  · simp only [enforce_row_limit, if_neg h] at hr
    revert hr
    split
    · intro hr
      exact (List.perm_insertionSort (rowDateGe d) df).mem_iff.mp
        (List.mem_of_mem_take hr)
    · intro hr
      exact List.mem_of_mem_drop hr

lemma enforce_keys_nodup (df : Frame) (d : String) (k : Row → Option String)
    (h : (df.map k).Nodup) : ((enforce_row_limit df d).map k).Nodup := by
  by_cases hle : df.length ≤ MAX_ROWS_PER_TABLE
  · rw [enforce_eq_of_le df d hle]
    exact h
  · simp only [enforce_row_limit, if_neg hle]
    have hsortnd : ((df.insertionSort (rowDateGe d)).map k).Nodup :=
      (((List.perm_insertionSort (rowDateGe d) df).map k).nodup_iff).mpr h
    split
    · exact hsortnd.sublist ((List.take_sublist _ _).map k)
    · exact h.sublist ((List.drop_sublist _ _).map k)

lemma enforce_date_threshold (df : Frame) (d : String)
    (hlen : ¬ df.length ≤ MAX_ROWS_PER_TABLE)
    (hd : (d ≠ "" && decide (d ∈ frameCols df)) = true) :
    ∀ x ∈ enforce_row_limit df d, ∀ y ∈ df, y ∉ enforce_row_limit df d →
      rowDateGe d x y := by
  intro x hx y hy hyn
  simp only [enforce_row_limit, if_neg hlen, hd, if_true] at hx hyn
  have hperm := List.perm_insertionSort (rowDateGe d) df
  have hsorted : List.Sorted (rowDateGe d) (df.insertionSort (rowDateGe d)) :=
    List.sorted_insertionSort (rowDateGe d) df
  have hy2 : y ∈ df.insertionSort (rowDateGe d) := hperm.mem_iff.mpr hy
  have hsplit := List.take_append_drop MAX_ROWS_PER_TABLE (df.insertionSort (rowDateGe d))
  rw [← hsplit] at hy2
  rcases List.mem_append.mp hy2 with hyt | hyd
  · exact absurd hyt hyn
  · have hpw : List.Pairwise (rowDateGe d)
        ((df.insertionSort (rowDateGe d)).take MAX_ROWS_PER_TABLE ++
          (df.insertionSort (rowDateGe d)).drop MAX_ROWS_PER_TABLE) := by
      rw [hsplit]
      exact hsorted
    exact (List.pairwise_append.mp hpw).2.2 x hx y hyd

lemma enforce_no_date (df : Frame) (d : String)
    (hlen : ¬ df.length ≤ MAX_ROWS_PER_TABLE)
    (hd : (d ≠ "" && decide (d ∈ frameCols df)) = false) :
    enforce_row_limit df d = df.drop (df.length - MAX_ROWS_PER_TABLE) := by
  rw [enforce_row_limit, if_neg hlen]
  rw [hd]
  simp


/-- Association-list read, modelling Python dict lookup. -/
def alistGet {β : Type} (c : List (String × β)) (t : String) : Option β :=
  (c.find? (fun p => p.1 = t)).map Prod.snd

/-- Association-list write, modelling Python dict assignment. -/
def alistSet {β : Type} (c : List (String × β)) (t : String) (v : β) :
    List (String × β) :=
  if c.any (fun p => p.1 = t) then
    c.map (fun p => if p.1 = t then (t, v) else p)
  else c ++ [(t, v)]

lemma alistGet_set {β : Type} (c : List (String × β)) (t : String) (v : β) :
    alistGet (alistSet c t v) t = some v := by
  simp only [alistSet]
  by_cases h : c.any (fun p => p.1 = t) = true
  · rw [if_pos h]
    induction c with
    | nil => simp at h
    | cons a cs ih =>
      by_cases ha : a.1 = t
      · simp [alistGet, ha]
      · have h2 : cs.any (fun p => p.1 = t) = true := by
          simp only [List.any_cons, Bool.or_eq_true, decide_eq_true_eq] at h
          rcases h with h | h
          · exact absurd h ha
          · exact List.any_eq_true.mpr (by simpa using h)
        simp only [List.map_cons, if_neg ha]
        simp only [alistGet] at ih ⊢
        rw [List.find?_cons_of_neg]
        · exact ih h2
        · simp [ha]
  · rw [if_neg h]
    induction c with
    | nil => simp [alistGet, List.find?]
    | cons a cs ih =>
      simp only [List.any_cons, Bool.or_eq_true, decide_eq_true_eq] at h
      push_neg at h
      simp only [List.cons_append, alistGet] at ih ⊢
      rw [List.find?_cons_of_neg]
      · exact ih (by simp [h.2])
      · simp [h.1]

/-- The cache entry (analytics.py `DatasetEntry`); `filter`, `select` and
the wall-clock `loaded_at` field are omitted (constants or real time). -/
structure DatasetEntry where
  df : Frame
  table : String
  row_count : Nat
  date_field : String
  date_min : Option Int
  date_max : Option Int
  pk_field : String

/-- Bound union as `merge_into_table_cache` computes it: min of the two
lower bounds when both are set, else whichever is set.  First argument is
the existing bound, second the inserted gap bound. -/
def unionMin : Option Int → Option Int → Option Int
  | some a, some b => some (min a b)
  | some a, none => some a
  | none, b => b

def unionMax : Option Int → Option Int → Option Int
  | some a, some b => some (max a b)
  | some a, none => some a
  | none, b => b

/-- Embedding of `merge_into_table_cache` (analytics.py). -/
def merge_into_table_cache (cache : List (String × DatasetEntry)) (table : String)
    (new_df : Frame) (date_field pk_field : String) (date_min date_max : Option Int) :
    List (String × DatasetEntry) :=
  match alistGet cache table with
  | none =>
    let df := enforce_row_limit new_df date_field
    alistSet cache table
      ⟨df, table, df.length, date_field, date_min, date_max, pk_field⟩
  | some existing =>
    let combined := existing.df ++ new_df
    let deduped :=
      if pk_field ∈ frameCols combined then
        drop_duplicates_keep_last pk_field combined
      else combined
    let final := enforce_row_limit deduped date_field
    alistSet cache table
      ⟨final, existing.table, final.length, existing.date_field,
        unionMin existing.date_min date_min, unionMax existing.date_max date_max,
        existing.pk_field⟩

/-- C2: after a `merge_into_table_cache` call on a table that already has a
cache entry, with the primary-key column present in the combined frame, the
stored entry has at most 50,000 rows, rows unique by primary key with the
last (newest) occurrence kept, date bounds equal to the union of the prior
and inserted bounds; under the cap the frame is exactly the deduplicated
concatenation, over the cap the kept rows are the 50,000 most recent by the
date field when one exists in the frame, otherwise the last 50,000 by
insertion order. -/
theorem merge_cache_invariants
    (cache : List (String × DatasetEntry)) (table : String) (new_df : Frame)
    (date_field pk_field : String) (d_min d_max : Option Int)
    (existing : DatasetEntry)
    (hex : alistGet cache table = some existing)
    (hpk : pk_field ∈ frameCols (existing.df ++ new_df)) :
    ∃ e, alistGet (merge_into_table_cache cache table new_df date_field pk_field
        d_min d_max) table = some e ∧
      e.df.length ≤ MAX_ROWS_PER_TABLE ∧
      (e.df.map (pkOf pk_field)).Nodup ∧
      (∀ r ∈ e.df, lastWithKey pk_field (pkOf pk_field r) (existing.df ++ new_df) = some r) ∧
      e.date_min = unionMin existing.date_min d_min ∧
      e.date_max = unionMax existing.date_max d_max ∧
      ((drop_duplicates_keep_last pk_field (existing.df ++ new_df)).length ≤
          MAX_ROWS_PER_TABLE →
        e.df = drop_duplicates_keep_last pk_field (existing.df ++ new_df)) ∧
      ((drop_duplicates_keep_last pk_field (existing.df ++ new_df)).length >
          MAX_ROWS_PER_TABLE →
        e.df.length = MAX_ROWS_PER_TABLE ∧
        ((date_field ≠ "" && decide (date_field ∈ frameCols
            (drop_duplicates_keep_last pk_field (existing.df ++ new_df)))) = true →
          ∀ x ∈ e.df, ∀ y ∈ drop_duplicates_keep_last pk_field (existing.df ++ new_df),
            y ∉ e.df → rowDateGe date_field x y) ∧
        ((date_field ≠ "" && decide (date_field ∈ frameCols
            (drop_duplicates_keep_last pk_field (existing.df ++ new_df)))) = false →
          e.df = (drop_duplicates_keep_last pk_field (existing.df ++ new_df)).drop
            ((drop_duplicates_keep_last pk_field (existing.df ++ new_df)).length -
              MAX_ROWS_PER_TABLE))) := by
  set combined := existing.df ++ new_df with hcomb
  set dd := drop_duplicates_keep_last pk_field combined with hdd
  set final := enforce_row_limit dd date_field with hfinal
  have hmerge : merge_into_table_cache cache table new_df date_field pk_field d_min d_max =
      alistSet cache table
        ⟨final, existing.table, final.length, existing.date_field,
          unionMin existing.date_min d_min, unionMax existing.date_max d_max,
          existing.pk_field⟩ := by
    rw [merge_into_table_cache, hex]
    simp only [if_pos hpk]
  refine ⟨_, by rw [hmerge]; exact alistGet_set cache table _, ?_, ?_, ?_, rfl, rfl, ?_, ?_⟩
  · exact (enforce_length dd date_field).1
  · exact enforce_keys_nodup dd date_field (pkOf pk_field) (drop_dup_keys_nodup pk_field combined)
  · intro r hr
    exact drop_dup_last_occurrence pk_field combined r (enforce_subset dd date_field r hr)
  · intro hle
    exact enforce_eq_of_le dd date_field hle
  · intro hgt
    have hnle : ¬ dd.length ≤ MAX_ROWS_PER_TABLE := by omega
    refine ⟨(enforce_length dd date_field).2 hgt, ?_, ?_⟩
    · intro hd x hx y hy hyn
      exact enforce_date_threshold dd date_field hnle hd x hx y hy hyn
    · intro hd
      exact enforce_no_date dd date_field hnle hd

/-- C2 witness: one cached row merged with one newer row of the same key. -/
theorem merge_cache_invariants_witness :
    ∃ e, alistGet (merge_into_table_cache
        [("T", ⟨[[("id", "1"), ("d", "2025-01-01")]], "T", 1, "d",
          some 0, some 0, "id"⟩)] "T"
        [[("id", "1"), ("d", "2025-01-02")]] "d" "id" (some 1) (some 1)) "T" = some e ∧
      e.df.length ≤ MAX_ROWS_PER_TABLE ∧
      (e.df.map (pkOf "id")).Nodup ∧
      (∀ r ∈ e.df, lastWithKey "id" (pkOf "id" r)
        ([[("id", "1"), ("d", "2025-01-01")]] ++ [[("id", "1"), ("d", "2025-01-02")]]) = some r) ∧
      e.date_min = unionMin (some 0) (some 1) ∧
      e.date_max = unionMax (some 0) (some 1) ∧
      ((drop_duplicates_keep_last "id"
          ([[("id", "1"), ("d", "2025-01-01")]] ++ [[("id", "1"), ("d", "2025-01-02")]])).length ≤
          MAX_ROWS_PER_TABLE →
        e.df = drop_duplicates_keep_last "id"
          ([[("id", "1"), ("d", "2025-01-01")]] ++ [[("id", "1"), ("d", "2025-01-02")]])) ∧
      ((drop_duplicates_keep_last "id"
          ([[("id", "1"), ("d", "2025-01-01")]] ++ [[("id", "1"), ("d", "2025-01-02")]])).length >
          MAX_ROWS_PER_TABLE →
        e.df.length = MAX_ROWS_PER_TABLE ∧
        (("d" ≠ "" && decide ("d" ∈ frameCols (drop_duplicates_keep_last "id"
            ([[("id", "1"), ("d", "2025-01-01")]] ++ [[("id", "1"), ("d", "2025-01-02")]])))) = true →
          ∀ x ∈ e.df, ∀ y ∈ drop_duplicates_keep_last "id"
            ([[("id", "1"), ("d", "2025-01-01")]] ++ [[("id", "1"), ("d", "2025-01-02")]]),
            y ∉ e.df → rowDateGe "d" x y) ∧
        (("d" ≠ "" && decide ("d" ∈ frameCols (drop_duplicates_keep_last "id"
            ([[("id", "1"), ("d", "2025-01-01")]] ++ [[("id", "1"), ("d", "2025-01-02")]])))) = false →
          e.df = (drop_duplicates_keep_last "id"
            ([[("id", "1"), ("d", "2025-01-01")]] ++ [[("id", "1"), ("d", "2025-01-02")]])).drop
            ((drop_duplicates_keep_last "id"
              ([[("id", "1"), ("d", "2025-01-01")]] ++ [[("id", "1"), ("d", "2025-01-02")]])).length -
              MAX_ROWS_PER_TABLE))) :=
  merge_cache_invariants
    [("T", ⟨[[("id", "1"), ("d", "2025-01-01")]], "T", 1, "d", some 0, some 0, "id"⟩)]
    "T" [[("id", "1"), ("d", "2025-01-02")]] "d" "id" (some 1) (some 1)
    ⟨[[("id", "1"), ("d", "2025-01-01")]], "T", 1, "d", some 0, some 0, "id"⟩
    (by rfl) (by decide)

/-! ### Tenant controller: `use_tenant` (tenant.py) -/

/-- A field definition from the DDL cache (ddl.py `FieldDef`; the TypedDict
is `total=False`, so every key is optional). -/
structure FieldDef where
  type : Option String
  tier : Option String
  pk : Option Bool
  fk : Option Bool
  description : Option String

abbrev TableSchema := List (String × FieldDef)

/-- Field annotations from `$metadata` (ddl.py `FieldAnnotations`). -/
structure FieldAnnots where
  calculation : Option Bool
  summary : Option Bool
  global_ : Option Bool
  comment : Option String

/-- A tenant's connection credentials (config.py `TenantConfig`). -/
structure TenantConfig where
  host : String
  database : String
  username : String
  password : String
  verify_ssl : Bool
  timeout : Int

/-- The process-wide mutable state the tools share: the schema store
(`TABLES`, `FIELD_ANNOTATIONS`, `DDL_CONTEXT`, `_script_available` in
ddl.py), the exposed-table set (query.py `EXPOSED_TABLES`), the schema
caches (schema.py `_schema_cache`, `_metadata_cache`), the analytics caches
(`_table_cache`, `_datasets`) and the HTTP client / active tenant. -/
structure ProcState where
  tables : List (String × TableSchema)
  field_annots : List (String × List (String × FieldAnnots))
  ddl_context : List ((String × String × String) × String)
  script_available : Option Bool
  exposed_tables : List (String × String)
  schema_cache : List (String × List (String × String))
  metadata_cache : Option String
  table_cache : List (String × DatasetEntry)
  datasets : List (String × DatasetEntry)
  client : Option TenantConfig
  active_tenant : String

/-- `ddl.clear_tables()`: clears `TABLES`, `FIELD_ANNOTATIONS`,
`DDL_CONTEXT` and resets `_script_available`. -/
def clear_tables (s : ProcState) : ProcState :=
  { s with
    tables := []
    field_annots := []
    ddl_context := []
    script_available := none }

/-- `query.clear_exposed_tables()`. -/
def clear_exposed_tables (s : ProcState) : ProcState :=
  { s with exposed_tables := [] }

/-- `schema.clear_schema_cache()`: clears `_schema_cache` and
`_metadata_cache`. -/
def clear_schema_cache (s : ProcState) : ProcState :=
  { s with
    schema_cache := []
    metadata_cache := none }

/-- `auth.reset_client(tenant)`: closes and rebuilds the HTTP client with
the tenant's credentials. -/
def reset_client (tenant : TenantConfig) (s : ProcState) : ProcState :=
  { s with client := some tenant }

/-- Sorted tenant names, `sorted(_tenants.keys())`. -/
def sortedKeys {β : Type} (tenants : List (String × β)) : List String :=
  (tenants.map Prod.fst).insertionSort (fun a b => a ≤ b)

/-- Python `str.lower()` (ASCII; tenant names are ASCII). -/
def pyLower (s : String) : String := String.mk (s.toList.map Char.toLower)

/-- Embedding of `use_tenant(name)` (tenant.py).  The six-step bootstrap
performs remote I/O and is passed in as an explicit state transition
`bootstrapFn`; `tenants` embeds the module-level `_tenants` map.  Returns
the message and the final state. -/
def use_tenant (tenants : List (String × TenantConfig))
    (bootstrapFn : ProcState → ProcState) (s : ProcState) (rawName : String) :
    String × ProcState :=
  let name := pyLower rawName
  match alistGet tenants name with
  | none =>
    ("Unknown tenant '" ++ name ++ "'. Available: " ++
      ", ".intercalate (sortedKeys tenants), s)
  | some tenant =>
    if name = s.active_tenant then
      ("Already connected to '" ++ name ++ "' (" ++ tenant.host ++ "/" ++
        tenant.database ++ ").", s)
    else
      let s1 := clear_tables s
      let s2 := clear_exposed_tables s1
      let s3 := clear_schema_cache s2
      let s4 := reset_client tenant s3
      let s5 := { s4 with active_tenant := name }
      let s6 := bootstrapFn s5
      ("Switched to '" ++ name ++ "'.\n  Host: " ++ tenant.host ++
        "\n  Database: " ++ tenant.database ++
        "\n  Tables discovered: " ++ toString s6.exposed_tables.length ++
        "\n  DDL cached: " ++ toString s6.tables.length ++ " table(s)", s6)


/-- C6 counterexample: switching from tenant `a` to known tenant `b` leaves
the analytics table cache untouched — `use_tenant` never clears it, contrary
to the claim that all process-wide cached state including the table cache is
cleared. -/
theorem use_tenant_cex :
    ((use_tenant
        [("a", ⟨"h1", "d1", "u", "p", true, 30⟩), ("b", ⟨"h2", "d2", "u", "p", true, 30⟩)]
        id
        ⟨[], [], [], none, [], [], none,
          [("T", ⟨[[("id", "1")]], "T", 1, "", none, none, "id"⟩)], [],
          some ⟨"h1", "d1", "u", "p", true, 30⟩, "a"⟩
        ("b")).2.table_cache =
      [("T", ⟨[[("id", "1")]], "T", 1, "", none, none, "id"⟩)]) ∧
    ([("T", (⟨[[("id", "1")]], "T", 1, "", none, none, "id"⟩ : DatasetEntry))] ≠
      ([] : List (String × DatasetEntry))) := by
  constructor
  · rfl
  · intro h
    exact absurd h (List.cons_ne_nil _ _)

/-- C6 (amended): `use_tenant` on a known tenant name (lower-cased) that
differs from the active one clears the schema store (tables, annotations,
context, script-availability flag), the exposed-table set and the schema
caches, rebuilds the client with the new credentials, records the new
active tenant and hands the resulting state to bootstrap — but the
analytics table cache and the named-dataset map are carried over
unchanged, not cleared; a request for the already-active tenant is a
no-op, and an unknown name returns an error message enumerating the
available tenants in sorted order. -/
theorem use_tenant_behaviour :
    (∀ (tenants : List (String × TenantConfig)) (bfn : ProcState → ProcState)
        (s : ProcState) (rawName : String) (tenant : TenantConfig),
      alistGet tenants (pyLower rawName) = some tenant →
      pyLower rawName ≠ s.active_tenant →
      ∃ s', (use_tenant tenants bfn s rawName).2 = bfn s' ∧
        s'.tables = [] ∧ s'.field_annots = [] ∧ s'.ddl_context = [] ∧
        s'.script_available = none ∧ s'.exposed_tables = [] ∧
        s'.schema_cache = [] ∧ s'.metadata_cache = none ∧
        s'.client = some tenant ∧ s'.active_tenant = pyLower rawName ∧
        s'.table_cache = s.table_cache ∧ s'.datasets = s.datasets) ∧
    (∀ tenants bfn (s : ProcState) rawName tenant,
      alistGet tenants (pyLower rawName) = some tenant →
      pyLower rawName = s.active_tenant →
      use_tenant tenants bfn s rawName =
        ("Already connected to '" ++ pyLower rawName ++ "' (" ++ tenant.host ++
          "/" ++ tenant.database ++ ").", s)) ∧
    (∀ tenants bfn (s : ProcState) rawName,
      alistGet tenants (pyLower rawName) = none →
      use_tenant tenants bfn s rawName =
        ("Unknown tenant '" ++ pyLower rawName ++ "'. Available: " ++
          ", ".intercalate (sortedKeys tenants), s)) := by
  refine ⟨?_, ?_, ?_⟩
  · intro tenants bfn s rawName tenant h1 h2
    refine ⟨{ clear_schema_cache (clear_exposed_tables (clear_tables s)) with
        client := some tenant
        active_tenant := pyLower rawName }, ?_, rfl, rfl, rfl, rfl, rfl, rfl, rfl, rfl,
      rfl, rfl, rfl⟩
    simp only [use_tenant, h1]
    rw [if_neg h2]
    rfl
  · intro tenants bfn s rawName tenant h1 h2
    simp only [use_tenant, h1]
    rw [if_pos h2]
  · intro tenants bfn s rawName h1
    simp only [use_tenant, h1]


/-! ### Request shaper: `_DATE_RANGE_RE`, `extract_date_range` (query.py)
and `build_period_filter` (dates.py) -/

/-! ### `_DATE_RANGE_RE` and `extract_date_range` (query.py)

The regex `"?(\w+)"?\s+(ge|gt|le|lt|eq)\s+(\d{4}-\d{2}-\d{2})` is embedded
as a character-level matcher with Python `re` semantics: `finditer` scans
left to right, emitting the leftmost match at each position and resuming
after it.  Backtracking never arises: `\w+`, `\s+` and the optional quotes
are forced to their greedy extent because the neighbouring character
classes are disjoint.  `\w` is modelled as ASCII `[A-Za-z0-9_]`. -/

def isWordChar (c : Char) : Bool := c.isAlphanum || c = '_'

def isSpaceChar (c : Char) : Bool :=
  c = ' ' || c = '\t' || c = '\n' || c = '\r' || c = '\x0b' || c = '\x0c'

inductive DROp where
  | ge | gt | le | lt | eq
deriving DecidableEq

/-- The two-character comparator alternation `(ge|gt|le|lt|eq)`. -/
def opOf (a b : Char) : Option DROp :=
  if a = 'g' && b = 'e' then some .ge
  else if a = 'g' && b = 't' then some .gt
  else if a = 'l' && b = 'e' then some .le
  else if a = 'l' && b = 't' then some .lt
  else if a = 'e' && b = 'q' then some .eq
  else none

/-- `\d{4}-\d{2}-\d{2}`, anchored at the head; returns the matched ten
characters and the rest. -/
def matchISODate : List Char → Option (List Char × List Char)
  | d1 :: d2 :: d3 :: d4 :: h1 :: m1 :: m2 :: h2 :: a1 :: a2 :: rest =>
    if d1.isDigit && d2.isDigit && d3.isDigit && d4.isDigit && h1 = '-' &&
        m1.isDigit && m2.isDigit && h2 = '-' && a1.isDigit && a2.isDigit then
      some ([d1, d2, d3, d4, h1, m1, m2, h2, a1, a2], rest)
    else none
  | _ => none

/-- The ten-character ISO date shape. -/
def isISOShape (a : List Char) : Bool :=
  match a with
  | [d1, d2, d3, d4, h1, m1, m2, h2, a1, a2] =>
    d1.isDigit && d2.isDigit && d3.isDigit && d4.isDigit && h1 = '-' &&
      m1.isDigit && m2.isDigit && h2 = '-' && a1.isDigit && a2.isDigit
  | _ => false

/-- `\s+`: at least one whitespace character, consumed greedily. -/
def dropSpaces1 : List Char → Option (List Char)
  | c :: t => if isSpaceChar c then some (t.dropWhile isSpaceChar) else none
  | [] => none

/-- The two comparator characters at the head, with the rest. -/
def matchOp2 : List Char → Option (DROp × List Char)
  | a :: b :: s5 => (opOf a b).map (fun op => (op, s5))
  | _ => none

/-- The part of a `_DATE_RANGE_RE` match after the field group: optional
quote, spaces, comparator, spaces, date.  Returns comparator, date value
and the unconsumed rest. -/
def matchDRTail (s2 : List Char) : Option (DROp × List Char × List Char) :=
  (dropSpaces1 (if s2.head? = some '"' then s2.tail else s2)).bind fun s4 =>
    (matchOp2 s4).bind fun x =>
      (dropSpaces1 x.2).bind fun s6 =>
        (matchISODate s6).map fun y => (x.1, y.1, y.2)

/-- The field group and tail of a `_DATE_RANGE_RE` match, after the
optional leading quote: `(\w+)` then `matchDRTail`. -/
def matchDRField (s1 : List Char) : Option ((List Char × DROp × List Char) × List Char) :=
  if s1.takeWhile isWordChar = [] then none
  else
    (matchDRTail (s1.dropWhile isWordChar)).map
      (fun x => ((s1.takeWhile isWordChar, x.1, x.2.1), x.2.2))

/-- One attempt of `_DATE_RANGE_RE` anchored at the head of `s`: optional
quote, field (`\w+`), then `matchDRTail`.  Returns the groups and the
unconsumed rest. -/
def matchDRAt (s : List Char) : Option ((List Char × DROp × List Char) × List Char) :=
  matchDRField (if s.head? = some '"' then s.tail else s)

lemma dropSpaces1_length {s t : List Char} (h : dropSpaces1 s = some t) :
    t.length < s.length := by
  cases s with
  | nil => simp [dropSpaces1] at h
  | cons c u =>
    simp only [dropSpaces1] at h
    split at h
    · cases h
      calc (u.dropWhile isSpaceChar).length ≤ u.length :=
          (List.dropWhile_sublist isSpaceChar).length_le
        _ < (c :: u).length := by simp
    · cases h

lemma matchISODate_length {s v rest : List Char} (h : matchISODate s = some (v, rest)) :
    rest.length + 10 = s.length := by
  unfold matchISODate at h
  split at h
  · split at h
    · cases h
      simp
    · cases h
  · cases h

lemma matchOp2_length {s4 : List Char} {op : DROp} {s5 : List Char}
    (h : matchOp2 s4 = some (op, s5)) : s5.length + 2 = s4.length := by
  unfold matchOp2 at h
  split at h
  · rename_i a b s5'
    cases hop : opOf a b with
    | none => rw [hop] at h; cases h
    | some op2 =>
      rw [hop] at h
      simp only [Option.map_some'] at h
      cases h
      simp
  · cases h

lemma matchDRTail_length {s2 : List Char} {op : DROp} {v rest : List Char}
    (h : matchDRTail s2 = some (op, v, rest)) : rest.length < s2.length := by
  unfold matchDRTail at h
  rw [Option.bind_eq_some] at h
  obtain ⟨s4, hs4, h⟩ := h
  rw [Option.bind_eq_some] at h
  obtain ⟨⟨op2, s5⟩, hop, h⟩ := h
  rw [Option.bind_eq_some] at h
  obtain ⟨s6, hs6, h⟩ := h
  rw [Option.map_eq_some'] at h
  obtain ⟨⟨v2, r2⟩, hiso, h⟩ := h
  cases h
  dsimp only at hs6 hiso ⊢
  have h3 : (if s2.head? = some '"' then s2.tail else s2).length ≤ s2.length := by
    split <;> simp [List.length_tail]
  have l4 := dropSpaces1_length hs4
  have lop := matchOp2_length hop
  have l6 := dropSpaces1_length hs6
  have liso := matchISODate_length hiso
  omega

lemma takeWhile_ne_nil_dropWhile_length {p : Char → Bool} {s : List Char}
    (h : s.takeWhile p ≠ []) : (s.dropWhile p).length < s.length := by
  cases s with
  | nil => simp [List.takeWhile_nil] at h
  | cons c u =>
    by_cases hc : p c = true
    · rw [List.dropWhile_cons_of_pos hc]
      calc (u.dropWhile p).length ≤ u.length := (List.dropWhile_sublist p).length_le
        _ < (c :: u).length := by simp
    · rw [List.takeWhile_cons_of_neg (by simpa using hc)] at h
      exact absurd rfl h

lemma matchDRField_length {s1 : List Char} {m : List Char × DROp × List Char}
    {rest : List Char} (h : matchDRField s1 = some (m, rest)) :
    rest.length < s1.length := by
  unfold matchDRField at h
  split at h
  · cases h
  · rename_i hw
    rw [Option.map_eq_some'] at h
    obtain ⟨⟨op, v, r⟩, htail, h⟩ := h
    replace h := congrArg Prod.snd h
    dsimp only at h
    subst h
    have l1 := matchDRTail_length htail
    have l2 := takeWhile_ne_nil_dropWhile_length hw
    omega

lemma matchDRAt_length {s : List Char} {m : List Char × DROp × List Char}
    {rest : List Char} (h : matchDRAt s = some (m, rest)) :
    rest.length < s.length := by
  unfold matchDRAt at h
  have l1 := matchDRField_length h
  have l3 : (if s.head? = some '"' then s.tail else s).length ≤ s.length := by
    split <;> simp [List.length_tail]
  omega

/-- `finditer` worker with explicit fuel (one unit per scan position; any
fuel above the string length gives the same answer, see
`findIterDRGo_fuel`). -/
def findIterDRGo : Nat → List Char → List (List Char × DROp × List Char)
  | 0, _ => []
  | _ + 1, [] => []
  | fuel + 1, c :: t =>
    match matchDRAt (c :: t) with
    | some (m, rest) => m :: findIterDRGo fuel rest
    | none => findIterDRGo fuel t

/-- `finditer` of `_DATE_RANGE_RE`: leftmost matches, scanning resumes
after each match. -/
def findIterDR (s : List Char) : List (List Char × DROp × List Char) :=
  findIterDRGo (s.length + 1) s

lemma findIterDRGo_fuel :
    ∀ (fuel : Nat) (s : List Char), s.length < fuel →
      findIterDRGo fuel s = findIterDR s := by
  intro fuel
  induction fuel using Nat.strong_induction_on with
  | _ fuel ih =>
    intro s hs
    match fuel, s with
    | 0, s => omega
    | fuel + 1, [] =>
      cases fuel <;> rfl
    | fuel + 1, c :: t =>
      have hs2 : t.length + 1 < fuel + 1 := by simpa using hs
      rw [findIterDR]
      show findIterDRGo (fuel + 1) (c :: t) = findIterDRGo (t.length + 1 + 1) (c :: t)
      cases hm : matchDRAt (c :: t) with
      | some pair =>
        obtain ⟨m, rest⟩ := pair
        have hlt : rest.length < t.length + 1 := by simpa using matchDRAt_length hm
        simp only [findIterDRGo, hm]
        have h1 : findIterDRGo fuel rest = findIterDR rest :=
          ih fuel (by omega) rest (by omega)
        have h2 : findIterDRGo (t.length + 1) rest = findIterDR rest :=
          ih (t.length + 1) (by omega) rest (by omega)
        rw [h1, h2]
      | none =>
        simp only [findIterDRGo, hm]
        have h1 : findIterDRGo fuel t = findIterDR t :=
          ih fuel (by omega) t (by omega)
        have h2 : findIterDRGo (t.length + 1) t = findIterDR t :=
          ih (t.length + 1) (by omega) t (by omega)
        rw [h1, h2]


/-- Whether a comparator sets the lower bound in `extract_date_range`
(`eq` sets both; `gt` behaves exactly like `ge`). -/
def lowerSetter : DROp → Bool
  | .ge | .gt | .eq => true
  | _ => false

/-- Whether a comparator sets the upper bound (`lt` exactly like `le`). -/
def upperSetter : DROp → Bool
  | .le | .lt | .eq => true
  | _ => false

/-- The fold step of `extract_date_range`: a clause on another field is
skipped; `eq` overwrites both bounds, `ge`/`gt` the lower, `le`/`lt` the
upper, with the literal date value. -/
def drStep (date_field : List Char) (lu : Option (List Char) × Option (List Char))
    (m : List Char × DROp × List Char) : Option (List Char) × Option (List Char) :=
  if m.1 ≠ date_field then lu
  else
    match m.2.1 with
    | .eq => (some m.2.2, some m.2.2)
    | .ge => (some m.2.2, lu.2)
    | .gt => (some m.2.2, lu.2)
    | .le => (lu.1, some m.2.2)
    | .lt => (lu.1, some m.2.2)

/-- Embedding of `extract_date_range(filter_str, date_field)` (query.py). -/
def extract_date_range (filter_str date_field : List Char) :
    Option (List Char) × Option (List Char) :=
  if filter_str = [] ∨ date_field = [] then (none, none)
  else (findIterDR filter_str).foldl (drStep date_field) (none, none)

lemma drFold_characterization (d : List Char) (ms : List (List Char × DROp × List Char)) :
    ms.foldl (drStep d) (none, none) =
      (((ms.filter (fun m => m.1 = d && lowerSetter m.2.1)).getLast?).map (fun m => m.2.2),
       ((ms.filter (fun m => m.1 = d && upperSetter m.2.1)).getLast?).map (fun m => m.2.2)) := by
  induction ms using List.reverseRecOn with
  | nil => simp
  | append_singleton ms m ih =>
    rw [List.foldl_append, List.foldl_cons, List.foldl_nil, ih]
    rw [List.filter_append, List.filter_append]
    by_cases hf : m.1 = d
    · cases hop : m.2.1 <;>
        simp [drStep, hf, hop, lowerSetter, upperSetter, List.getLast?_append]
    · simp [drStep, hf]

lemma matchDRField_field_ne_nil {s1 : List Char} {m : List Char × DROp × List Char}
    {rest : List Char} (h : matchDRField s1 = some (m, rest)) : m.1 ≠ [] := by
  unfold matchDRField at h
  split at h
  · cases h
  · rename_i hw
    rw [Option.map_eq_some'] at h
    obtain ⟨x, _, h⟩ := h
    replace h := congrArg Prod.fst h
    dsimp only at h
    rw [← h]
    exact hw

lemma matchDRAt_field_ne_nil {s : List Char} {m : List Char × DROp × List Char}
    {rest : List Char} (h : matchDRAt s = some (m, rest)) : m.1 ≠ [] := by
  unfold matchDRAt at h
  exact matchDRField_field_ne_nil h

lemma findIterDRGo_field_ne_nil :
    ∀ (fuel : Nat) (s : List Char), ∀ m ∈ findIterDRGo fuel s, m.1 ≠ [] := by
  intro fuel
  induction fuel with
  | zero =>
    intro s m hm
    simp [findIterDRGo] at hm
  | succ n ih =>
    intro s m hm
    cases s with
    | nil => simp [findIterDRGo] at hm
    | cons c t =>
      simp only [findIterDRGo] at hm
      cases hmatch : matchDRAt (c :: t) with
      | some pair =>
        rw [hmatch] at hm
        obtain ⟨m2, rest⟩ := pair
        rcases List.mem_cons.mp hm with h | h
        · subst h
          exact matchDRAt_field_ne_nil hmatch
        · exact ih rest m h
      | none =>
        rw [hmatch] at hm
        exact ih t m hm

lemma findIterDR_field_ne_nil :
    ∀ s : List Char, ∀ m ∈ findIterDR s, m.1 ≠ [] :=
  fun s m hm => findIterDRGo_field_ne_nil (s.length + 1) s m hm


/-- C10: scanning a filter, the last matching clause on the date field wins
for each bound it sets — `eq` overwrites both bounds, `ge`/`gt` the lower,
`le`/`lt` the upper — and `gt`/`lt` are treated identically to `ge`/`le`,
the extracted bound being the literal matched date, not adjusted by a day
(see `drStep` and `lowerSetter`/`upperSetter`). -/
theorem extract_date_range_last_wins (s d : List Char) :
    extract_date_range s d =
      (((findIterDR s).filter
          (fun m => m.1 = d && lowerSetter m.2.1)).getLast?.map (fun m => m.2.2),
       ((findIterDR s).filter
          (fun m => m.1 = d && upperSetter m.2.1)).getLast?.map (fun m => m.2.2)) := by
  unfold extract_date_range
  split
  · rename_i h
    have hfilt : ∀ p : DROp → Bool,
        (findIterDR s).filter (fun m => m.1 = d && p m.2.1) = [] := by
      rcases h with h | h
      · subst h
        intro p
        rw [show findIterDR [] = [] from rfl]
        rfl
      · subst h
        intro p
        rw [List.filter_eq_nil_iff]
        intro m hm
        simp only [Bool.and_eq_true, decide_eq_true_eq, not_and]
        intro hf
        exact absurd hf (findIterDR_field_ne_nil s m hm)
    rw [hfilt lowerSetter, hfilt upperSetter]
    rfl
  · exact drFold_characterization d (findIterDR s)


lemma findIterDR_nil : findIterDR [] = [] := rfl

lemma findIterDR_cons_some {c : Char} {t : List Char}
    {m : List Char × DROp × List Char} {rest : List Char}
    (h : matchDRAt (c :: t) = some (m, rest)) :
    findIterDR (c :: t) = m :: findIterDR rest := by
  have hlt := matchDRAt_length h
  rw [findIterDR]
  simp only [List.length_cons, findIterDRGo, h]
  rw [findIterDRGo_fuel (t.length + 1) rest (by simpa using hlt)]

lemma findIterDR_cons_none {c : Char} {t : List Char}
    (h : matchDRAt (c :: t) = none) :
    findIterDR (c :: t) = findIterDR t := by
  rw [findIterDR]
  simp only [List.length_cons, findIterDRGo, h]
  rw [findIterDRGo_fuel (t.length + 1) t (by omega)]


lemma isWordChar_ne_space {c : Char} (h : isWordChar c = true) : isSpaceChar c = false := by
  by_contra hc
  rw [Bool.not_eq_false] at hc
  unfold isSpaceChar at hc
  simp only [Bool.or_eq_true, decide_eq_true_eq] at hc
  rcases hc with ((((h1 | h1) | h1) | h1) | h1) | h1 <;> subst h1 <;> exact absurd h (by decide)

lemma isWordChar_ne_quote {c : Char} (h : isWordChar c = true) : c ≠ '"' := by
  intro h1
  subst h1
  exact absurd h (by decide)

lemma isDigit_ne_space {c : Char} (h : c.isDigit = true) : isSpaceChar c = false := by
  by_contra hc
  rw [Bool.not_eq_false] at hc
  unfold isSpaceChar at hc
  simp only [Bool.or_eq_true, decide_eq_true_eq] at hc
  rcases hc with ((((h1 | h1) | h1) | h1) | h1) | h1 <;> subst h1 <;> exact absurd h (by decide)

lemma opOf_none_of_second {a b : Char} (hb : b ≠ 'e' ∧ b ≠ 't' ∧ b ≠ 'q') :
    opOf a b = none := by
  unfold opOf
  obtain ⟨h1, h2, h3⟩ := hb
  simp [h1, h2, h3]

lemma takeWhile_word_append {f : List Char} (hfw : ∀ c ∈ f, isWordChar c = true)
    {c : Char} (hc : isWordChar c = false) (rest : List Char) :
    (f ++ c :: rest).takeWhile isWordChar = f ∧
    (f ++ c :: rest).dropWhile isWordChar = c :: rest := by
  induction f with
  | nil =>
    simp only [List.nil_append]
    constructor
    · rw [List.takeWhile_cons_of_neg (by simp [hc])]
    · rw [List.dropWhile_cons_of_neg (by simp [hc])]
  | cons a f' ih =>
    have ha := hfw a (List.mem_cons_self a f')
    have ih2 := ih (fun x hx => hfw x (List.mem_cons_of_mem a hx))
    simp only [List.cons_append]
    constructor
    · rw [List.takeWhile_cons_of_pos (by simp [ha])]
      rw [ih2.1]
    · rw [List.dropWhile_cons_of_pos (by simp [ha])]
      exact ih2.2

lemma matchISODate_append {a : List Char} (ha : isISOShape a = true) (rest : List Char) :
    matchISODate (a ++ rest) = some (a, rest) := by
  unfold isISOShape at ha
  split at ha
  · rename_i d1 d2 d3 d4 h1 m1 m2 h2 a1 a2
    simp only [List.cons_append, List.nil_append, matchISODate]
    rw [if_pos ha]
  · cases ha

lemma isISOShape_head_digit {a : List Char} (ha : isISOShape a = true) :
    ∃ c t, a = c :: t ∧ c.isDigit = true := by
  unfold isISOShape at ha
  split at ha
  · rename_i d1 d2 d3 d4 h1 m1 m2 h2 a1 a2
    simp only [Bool.and_eq_true] at ha
    exact ⟨d1, _, rfl, ha.1.1.1.1.1.1.1.1.1⟩
  · cases ha


lemma head?_cons_ne_quote {c : Char} (hc : c ≠ '"') (t : List Char) :
    ¬ ((c :: t).head? = some '"') := by
  simp [hc]

lemma matchDRTail_clause {o1 o2 : Char} {op : DROp} (hop : opOf o1 o2 = some op)
    (ho1 : isSpaceChar o1 = false) {a : List Char} (ha : isISOShape a = true)
    (rest : List Char) :
    matchDRTail (' ' :: o1 :: o2 :: ' ' :: (a ++ rest)) = some (op, a, rest) := by
  obtain ⟨d, t, hat, hd⟩ := isISOShape_head_digit ha
  unfold matchDRTail
  rw [if_neg (head?_cons_ne_quote (by decide) _)]
  have h2 : dropSpaces1 (' ' :: o1 :: o2 :: ' ' :: (a ++ rest)) =
      some (o1 :: o2 :: ' ' :: (a ++ rest)) := by
    simp only [dropSpaces1]
    rw [if_pos (show isSpaceChar ' ' = true by decide)]
    rw [List.dropWhile_cons_of_neg (show ¬ (isSpaceChar o1 = true) by simp [ho1])]
  rw [h2, Option.some_bind]
  have h3 : matchOp2 (o1 :: o2 :: ' ' :: (a ++ rest)) = some (op, ' ' :: (a ++ rest)) := by
    simp only [matchOp2, hop, Option.map_some']
  rw [h3, Option.some_bind]
  have h4 : dropSpaces1 (' ' :: (a ++ rest)) = some (a ++ rest) := by
    simp only [dropSpaces1]
    rw [if_pos (show isSpaceChar ' ' = true by decide)]
    rw [hat, List.cons_append]
    rw [List.dropWhile_cons_of_neg
      (show ¬ (isSpaceChar d = true) by simp [isDigit_ne_space hd])]
  rw [h4, Option.some_bind]
  rw [matchISODate_append ha rest, Option.map_some']


lemma matchISODate_none_head {c : Char} (hc : c.isDigit = false) (t : List Char) :
    matchISODate (c :: t) = none := by
  unfold matchISODate
  split
  · rename_i heq
    rw [if_neg]
    intro hcontra
    simp only [Bool.and_eq_true] at hcontra
    -- the first pattern digit is c
    have : c.isDigit = true := by
      have h1 := congrArg List.head? heq
      simp only [List.head?] at h1
      cases h1
      exact hcontra.1.1.1.1.1.1.1.1.1
    rw [hc] at this
    cases this
  · rfl

lemma appendHead_ne_quote {f : List Char} (hf : f ≠ [])
    (hfw : ∀ c ∈ f, isWordChar c = true) (x : List Char) :
    ¬ ((f ++ x).head? = some '"') := by
  cases f with
  | nil => exact absurd rfl hf
  | cons c0 f1 =>
    rw [List.cons_append]
    exact head?_cons_ne_quote (isWordChar_ne_quote (hfw c0 (List.mem_cons_self c0 f1))) _

lemma matchDRAt_clause {f : List Char} (hf : f ≠ [])
    (hfw : ∀ c ∈ f, isWordChar c = true)
    {o1 o2 : Char} {op : DROp} (hop : opOf o1 o2 = some op)
    (ho1 : isSpaceChar o1 = false) {a : List Char} (ha : isISOShape a = true)
    (rest : List Char) :
    matchDRAt (f ++ ' ' :: o1 :: o2 :: ' ' :: (a ++ rest)) = some ((f, op, a), rest) := by
  have htd := takeWhile_word_append hfw (show isWordChar ' ' = false by decide)
    (o1 :: o2 :: ' ' :: (a ++ rest))
  unfold matchDRAt matchDRField
  rw [if_neg (appendHead_ne_quote hf hfw _)]
  rw [htd.1, htd.2]
  rw [if_neg hf]
  rw [matchDRTail_clause hop ho1 ha rest, Option.map_some']

lemma matchDRTail_and_none {f : List Char} (hf : f ≠ [])
    (hfw : ∀ c ∈ f, isWordChar c = true)
    {b : List Char} (hb : isISOShape b = true) :
    matchDRTail (' ' :: (f ++ ' ' :: 'l' :: 'e' :: ' ' :: b)) = none := by
  cases f with
  | nil => exact absurd rfl hf
  | cons x f' =>
    have hx := hfw x (List.mem_cons_self x f')
    unfold matchDRTail
    rw [if_neg (head?_cons_ne_quote (by decide) _)]
    have h2 : dropSpaces1 (' ' :: ((x :: f') ++ ' ' :: 'l' :: 'e' :: ' ' :: b)) =
        some ((x :: f') ++ ' ' :: 'l' :: 'e' :: ' ' :: b) := by
      simp only [dropSpaces1, List.cons_append]
      rw [if_pos (show isSpaceChar ' ' = true by decide)]
      rw [List.dropWhile_cons_of_neg
        (show ¬ (isSpaceChar x = true) by simp [isWordChar_ne_space hx])]
    rw [h2, Option.some_bind]
    cases f' with
    | nil =>
      have h3 : matchOp2 ([x] ++ ' ' :: 'l' :: 'e' :: ' ' :: b) = none := by
        simp only [List.cons_append, List.nil_append, matchOp2]
        rw [opOf_none_of_second ⟨by decide, by decide, by decide⟩]
        rfl
      rw [h3, Option.none_bind]
    | cons y f'' =>
      have hy := hfw y (List.mem_cons_of_mem x (List.mem_cons_self y f''))
      cases hxy : opOf x y with
      | none =>
        have h3 : matchOp2 ((x :: y :: f'') ++ ' ' :: 'l' :: 'e' :: ' ' :: b) = none := by
          simp only [List.cons_append, matchOp2]
          rw [hxy]
          rfl
        rw [h3, Option.none_bind]
      | some op2 =>
        have h3 : matchOp2 ((x :: y :: f'') ++ ' ' :: 'l' :: 'e' :: ' ' :: b) =
            some (op2, f'' ++ ' ' :: 'l' :: 'e' :: ' ' :: b) := by
          simp only [List.cons_append, matchOp2]
          rw [hxy]
          rfl
        rw [h3, Option.some_bind]
        cases f'' with
        | nil =>
          have h4 : dropSpaces1 (([] : List Char) ++ ' ' :: 'l' :: 'e' :: ' ' :: b) =
              some ('l' :: 'e' :: ' ' :: b) := by
            simp only [List.nil_append, dropSpaces1]
            rw [if_pos (show isSpaceChar ' ' = true by decide)]
            rw [List.dropWhile_cons_of_neg (show ¬ (isSpaceChar 'l' = true) by decide)]
          rw [h4, Option.some_bind]
          rw [matchISODate_none_head (by decide) _]
          rfl
        | cons z f3 =>
          have hz := hfw z (List.mem_cons_of_mem x (List.mem_cons_of_mem y
            (List.mem_cons_self z f3)))
          have h4 : dropSpaces1 ((z :: f3) ++ ' ' :: 'l' :: 'e' :: ' ' :: b) = none := by
            simp only [List.cons_append, dropSpaces1]
            rw [if_neg (show ¬ (isSpaceChar z = true) by simp [isWordChar_ne_space hz])]
          rw [h4, Option.none_bind]

lemma matchDRAt_and_none {u f b : List Char} (hu : u ≠ [])
    (huw : ∀ c ∈ u, isWordChar c = true) (hf : f ≠ [])
    (hfw : ∀ c ∈ f, isWordChar c = true) (hb : isISOShape b = true) :
    matchDRAt (u ++ ' ' :: (f ++ ' ' :: 'l' :: 'e' :: ' ' :: b)) = none := by
  have htd := takeWhile_word_append huw (show isWordChar ' ' = false by decide)
    (f ++ ' ' :: 'l' :: 'e' :: ' ' :: b)
  unfold matchDRAt matchDRField
  rw [if_neg (appendHead_ne_quote hu huw _)]
  rw [htd.1, htd.2]
  rw [if_neg hu]
  rw [matchDRTail_and_none hf hfw hb]
  rfl

lemma matchDRAt_none_of_head {c : Char} (hc : isWordChar c = false) (hq : c ≠ '"')
    (t : List Char) : matchDRAt (c :: t) = none := by
  unfold matchDRAt matchDRField
  rw [if_neg (head?_cons_ne_quote hq _)]
  rw [List.takeWhile_cons_of_neg (by simp [hc])]
  rw [if_pos rfl]


/-- Embedding of `build_period_filter(date_field, start, end)` (dates.py). -/
def build_period_filter (date_field start stop : List Char) : List Char :=
  if start = stop then
    date_field ++ ' ' :: 'e' :: 'q' :: ' ' :: start
  else
    date_field ++ ' ' :: 'g' :: 'e' :: ' ' ::
      (start ++ ' ' :: 'a' :: 'n' :: 'd' :: ' ' ::
        (date_field ++ ' ' :: 'l' :: 'e' :: ' ' :: stop))

lemma findIterDR_le_clause {f b : List Char} (hf : f ≠ [])
    (hfw : ∀ c ∈ f, isWordChar c = true) (hb : isISOShape b = true) :
    findIterDR (' ' :: 'a' :: 'n' :: 'd' :: ' ' ::
      (f ++ ' ' :: 'l' :: 'e' :: ' ' :: b)) = [(f, DROp.le, b)] := by
  have h1 : matchDRAt ('a' :: 'n' :: 'd' :: ' ' :: (f ++ ' ' :: 'l' :: 'e' :: ' ' :: b)) =
      none := by
    have h0 : matchDRAt (['a', 'n', 'd'] ++ ' ' :: (f ++ ' ' :: 'l' :: 'e' :: ' ' :: b)) =
        none := matchDRAt_and_none (by simp) (by decide) hf hfw hb
    simpa using h0
  have h2 : matchDRAt ('n' :: 'd' :: ' ' :: (f ++ ' ' :: 'l' :: 'e' :: ' ' :: b)) =
      none := by
    have h0 : matchDRAt (['n', 'd'] ++ ' ' :: (f ++ ' ' :: 'l' :: 'e' :: ' ' :: b)) =
        none := matchDRAt_and_none (by simp) (by decide) hf hfw hb
    simpa using h0
  have h3 : matchDRAt ('d' :: ' ' :: (f ++ ' ' :: 'l' :: 'e' :: ' ' :: b)) =
      none := by
    have h0 : matchDRAt (['d'] ++ ' ' :: (f ++ ' ' :: 'l' :: 'e' :: ' ' :: b)) =
        none := matchDRAt_and_none (by simp) (by decide) hf hfw hb
    simpa using h0
  rw [findIterDR_cons_none (matchDRAt_none_of_head (by decide) (by decide) _)]
  rw [findIterDR_cons_none h1]
  rw [findIterDR_cons_none h2]
  rw [findIterDR_cons_none h3]
  rw [findIterDR_cons_none (matchDRAt_none_of_head (by decide) (by decide) _)]
  cases f with
  | nil => exact absurd rfl hf
  | cons c0 f1 =>
    have hsome : matchDRAt ((c0 :: f1) ++ ' ' :: 'l' :: 'e' :: ' ' :: (b ++ [])) =
        some ((c0 :: f1, DROp.le, b), []) :=
      matchDRAt_clause hf hfw (show opOf 'l' 'e' = some DROp.le by decide)
        (by decide) hb []
    rw [List.append_nil] at hsome
    rw [List.cons_append]
    rw [List.cons_append] at hsome
    rw [findIterDR_cons_some hsome]
    rw [findIterDR_nil]

lemma findIterDR_period_filter_ne {f a b : List Char} (hf : f ≠ [])
    (hfw : ∀ c ∈ f, isWordChar c = true) (ha : isISOShape a = true)
    (hb : isISOShape b = true) :
    findIterDR (f ++ ' ' :: 'g' :: 'e' :: ' ' ::
        (a ++ ' ' :: 'a' :: 'n' :: 'd' :: ' ' ::
          (f ++ ' ' :: 'l' :: 'e' :: ' ' :: b))) =
      [(f, DROp.ge, a), (f, DROp.le, b)] := by
  have hsome : matchDRAt (f ++ ' ' :: 'g' :: 'e' :: ' ' ::
      (a ++ ' ' :: 'a' :: 'n' :: 'd' :: ' ' ::
        (f ++ ' ' :: 'l' :: 'e' :: ' ' :: b))) =
      some ((f, DROp.ge, a),
        ' ' :: 'a' :: 'n' :: 'd' :: ' ' :: (f ++ ' ' :: 'l' :: 'e' :: ' ' :: b)) :=
    matchDRAt_clause hf hfw (show opOf 'g' 'e' = some DROp.ge by decide) (by decide) ha _
  cases f with
  | nil => exact absurd rfl hf
  | cons c0 f1 =>
    rw [List.cons_append] at hsome ⊢
    rw [findIterDR_cons_some hsome]
    rw [findIterDR_le_clause hf hfw hb]

lemma findIterDR_period_filter_eq {f a : List Char} (hf : f ≠ [])
    (hfw : ∀ c ∈ f, isWordChar c = true) (ha : isISOShape a = true) :
    findIterDR (f ++ ' ' :: 'e' :: 'q' :: ' ' :: a) = [(f, DROp.eq, a)] := by
  have hsome : matchDRAt (f ++ ' ' :: 'e' :: 'q' :: ' ' :: (a ++ [])) =
      some ((f, DROp.eq, a), []) :=
    matchDRAt_clause hf hfw (show opOf 'e' 'q' = some DROp.eq by decide) (by decide) ha []
  rw [List.append_nil] at hsome
  cases f with
  | nil => exact absurd rfl hf
  | cons c0 f1 =>
    rw [List.cons_append] at hsome ⊢
    rw [findIterDR_cons_some hsome]
    rw [findIterDR_nil]


/-- C3 counterexample: for the field name `Service Date` — which contains a
space and so never matches the `\w+` field group — the round trip loses
both bounds: `extract_date_range` returns `(none, none)`, not the built
range. -/
theorem build_period_filter_cex :
    extract_date_range
        (build_period_filter (("Service Date").toList) (("2025-01-01").toList)
          (("2025-01-31").toList))
        (("Service Date").toList) = (none, none) ∧
    ((none, none) : Option (List Char) × Option (List Char)) ≠
      (some (("2025-01-01").toList), some (("2025-01-31").toList)) := by
  constructor
  · rfl
  · intro h
    cases h

/-- C3 (amended): for every nonempty field name consisting of word
characters (ASCII letters, digits, underscore) and all ten-character ISO
dates `a`, `b` (no `a ≤ b` restriction is needed),
`extract_date_range (build_period_filter f a b) f = (some a, some b)`;
when `a = b` the built `f eq a` clause is read back as both bounds. -/
theorem build_extract_roundtrip (f a b : List Char) (hf : f ≠ [])
    (hfw : ∀ c ∈ f, isWordChar c = true)
    (ha : isISOShape a = true) (hb : isISOShape b = true) :
    extract_date_range (build_period_filter f a b) f = (some a, some b) := by
  have hne : build_period_filter f a b ≠ [] := by
    unfold build_period_filter
    cases f with
    | nil => exact absurd rfl hf
    | cons c0 f1 =>
      split <;> simp
  unfold extract_date_range
  rw [if_neg (by push_neg; exact ⟨hne, hf⟩)]
  unfold build_period_filter
  by_cases hab : a = b
  · rw [if_pos hab]
    rw [findIterDR_period_filter_eq hf hfw ha]
    subst hab
    simp only [List.foldl_cons, List.foldl_nil, drStep]
    rw [if_neg (by simp)]
  · rw [if_neg hab]
    rw [findIterDR_period_filter_ne hf hfw ha hb]
    simp only [List.foldl_cons, List.foldl_nil, drStep]
    rw [if_neg (by simp), if_neg (by simp)]

/-- C3 witness: the weekly-report filter of §8 of the spec. -/
theorem build_extract_roundtrip_witness :
    extract_date_range
        (build_period_filter (("ServiceDate").toList) (("2026-02-16").toList)
          (("2026-02-20").toList))
        (("ServiceDate").toList) =
      (some (("2026-02-16").toList), some (("2026-02-20").toList)) :=
  build_extract_roundtrip (("ServiceDate").toList) (("2026-02-16").toList)
    (("2026-02-20").toList) (by decide) (by decide) (by decide) (by decide)


/-! ## C5: `normalize_dates_in_filter` (query.py) -/

/-- A single or double quote. -/
def isQuote (c : Char) : Bool := c = '\'' || c = '"'

/-- Generic `re.sub` scan: at each position try `matchAt` (which returns
the replacement text and the rest after the match); on failure copy one
character.  Every matcher below consumes at least one character, so fuel
`length + 1` never runs out. -/
def subAll (matchAt : List Char → Option (List Char × List Char)) :
    Nat → List Char → List Char
  | 0, s => s
  | _ + 1, [] => []
  | fuel + 1, c :: t =>
    match matchAt (c :: t) with
    | some (repl, rest) => repl ++ subAll matchAt fuel rest
    | none => c :: subAll matchAt fuel t

/-- Transformation (a) of `normalize_dates_in_filter`:
`['"](\d{4}-\d{2}-\d{2})(?:T[^'"]*)?['"]` replaced by the date group.
The optional greedy `T[^'"]*` runs to the first quote; when no quote
follows, the alternative without the group needs a quote where the `T`
stands and the whole match fails. -/
def match1At : List Char → Option (List Char × List Char)
  | [] => none
  | q1 :: rest =>
    if isQuote q1 then
      match matchISODate rest with
      | some (v, rest2) =>
        match rest2 with
        | 'T' :: r3 =>
          (match r3.dropWhile (fun c => !(isQuote c)) with
          | _ :: r5 => some (v, r5)
          | [] => none)
        | q2 :: r3 => if isQuote q2 then some (v, r3) else none
        | [] => none
      | none => none
    else none

/-- The character class `[Z\d:.+\-]` of `_ISO_TIMESTAMP_RE`. -/
def isTZClass (c : Char) : Bool :=
  c = 'Z' || c.isDigit || c = ':' || c = '.' || c = '+' || c = '-'

/-- Transformation (b): `_ISO_TIMESTAMP_RE`,
`(\d{4}-\d{2}-\d{2})T\d{2}:\d{2}:\d{2}[Z\d:.+\-]*` replaced by the date. -/
def match2At (s : List Char) : Option (List Char × List Char) :=
  match matchISODate s with
  | some (v, rest) =>
    match rest with
    | 'T' :: h1 :: h2 :: c1 :: m1 :: m2 :: c2 :: s1 :: s2 :: r =>
      if h1.isDigit && h2.isDigit && c1 = ':' && m1.isDigit && m2.isDigit &&
          c2 = ':' && s1.isDigit && s2.isDigit then
        some (v, r.dropWhile isTZClass)
      else none
    | _ => none
  | none => none

/-- Greedy `\d{1,2}` followed by the separator `sep`, consuming both;
two digits are preferred, backtracking to one also requires `sep` next. -/
def matchD12Sep (sep : Char) : List Char → Option (List Char × List Char)
  | d1 :: d2 :: c3 :: r =>
    if d1.isDigit then
      if d2.isDigit then
        if c3 = sep then some ([d1, d2], r) else none
      else if d2 = sep then some ([d1], c3 :: r)
      else none
    else none
  | [d1, d2] =>
    if d1.isDigit && d2 = sep then some ([d1], []) else none
  | _ => none

/-- Exactly `\d{4}`. -/
def match4Digits : List Char → Option (List Char × List Char)
  | y1 :: y2 :: y3 :: y4 :: r =>
    if y1.isDigit && y2.isDigit && y3.isDigit && y4.isDigit then
      some ([y1, y2, y3, y4], r)
    else none
  | _ => none

/-- The optional clock-time group of `_US_DATE_RE`:
`\s+\d{1,2}:\d{2}:\d{2}\s*(?:AM|PM)?`.  Returns the rest after the group
when it matches. -/
def matchTimeGroup : List Char → Option (List Char)
  | [] => none
  | c :: t =>
    if isSpaceChar c then
      match matchD12Sep ':' (t.dropWhile isSpaceChar) with
      | some (_, r2) =>
        match r2 with
        | m1 :: m2 :: ':' :: s1 :: s2 :: r3 =>
          if m1.isDigit && m2.isDigit && s1.isDigit && s2.isDigit then
            match r3.dropWhile isSpaceChar with
            | 'A' :: 'M' :: r5 => some r5
            | 'P' :: 'M' :: r5 => some r5
            | r4 => some r4
          else none
        | _ => none
      | none => none
    else none

/-- Digit characters to their value. -/
def digitsToNat (ds : List Char) : Nat :=
  ds.foldl (fun acc c => 10 * acc + (c.toNat - 48)) 0

/-- Python `f"{n:02d}"` for `n ≤ 99`. -/
def pad2 (n : Nat) : List Char :=
  [Char.ofNat (48 + n / 10 % 10), Char.ofNat (48 + n % 10)]

/-- Transformation (c): `_US_DATE_RE` with the `_us_to_iso` replacement
`f"{year}-{int(month):02d}-{int(day):02d}"`. -/
def match3At (s : List Char) : Option (List Char × List Char) :=
  (matchD12Sep '/' s).bind fun md =>
    (matchD12Sep '/' md.2).bind fun dd =>
      (match4Digits dd.2).bind fun yr =>
        let rest :=
          match matchTimeGroup yr.2 with
          | some r4 => r4
          | none => yr.2
        some (yr.1 ++ ('-' :: (pad2 (digitsToNat md.1) ++
          ('-' :: pad2 (digitsToNat dd.1)))), rest)

/-- Transformation (d): `['"](\d{4}-\d{2}-\d{2})['"]` replaced by the
date group. -/
def match4At : List Char → Option (List Char × List Char)
  | [] => none
  | q1 :: rest =>
    if isQuote q1 then
      match matchISODate rest with
      | some (v, rest2) =>
        match rest2 with
        | q2 :: r3 => if isQuote q2 then some (v, r3) else none
        | [] => none
      | none => none
    else none

/-- Embedding of `normalize_dates_in_filter` (query.py): the four
substitutions in order. -/
def normalize_dates_in_filter (s : List Char) : List Char :=
  if s = [] then s
  else
    let s1 := subAll match1At (s.length + 1) s
    let s2 := subAll match2At (s1.length + 1) s1
    let s3 := subAll match3At (s2.length + 1) s2
    subAll match4At (s3.length + 1) s3


lemma subAll_id_of_no_match (matchAt : List Char → Option (List Char × List Char)) :
    ∀ s : List Char, (∀ t : List Char, t <:+ s → matchAt t = none) →
      ∀ fuel : Nat, subAll matchAt fuel s = s := by
  intro s
  induction s with
  | nil =>
    intro _ fuel
    cases fuel <;> rfl
  | cons c t ih =>
    intro hno fuel
    cases fuel with
    | zero => rfl
    | succ n =>
      simp only [subAll, hno (c :: t) (List.suffix_refl _)]
      rw [ih (fun u hu => hno u (hu.trans (List.suffix_cons c t))) n]

lemma matchISODate_eq_append {t v rest : List Char}
    (h : matchISODate t = some (v, rest)) : t = v ++ rest := by
  unfold matchISODate at h
  split at h
  · split at h
    · cases h
      simp
    · cases h
  · cases h

lemma match1At_none_of_no_quote {t : List Char}
    (h : ∀ c ∈ t, isQuote c = false) : match1At t = none := by
  cases t with
  | nil => rfl
  | cons q1 rest =>
    simp only [match1At]
    rw [if_neg (by simp [h q1 (List.mem_cons_self q1 rest)])]

lemma match4At_none_of_no_quote {t : List Char}
    (h : ∀ c ∈ t, isQuote c = false) : match4At t = none := by
  cases t with
  | nil => rfl
  | cons q1 rest =>
    simp only [match4At]
    rw [if_neg (by simp [h q1 (List.mem_cons_self q1 rest)])]

lemma match2At_none_of_no_T {t : List Char} (h : 'T' ∉ t) : match2At t = none := by
  unfold match2At
  cases hm : matchISODate t with
  | none => rfl
  | some vr =>
    obtain ⟨v, rest⟩ := vr
    have happ := matchISODate_eq_append hm
    dsimp only
    split
    · exfalso
      apply h
      rw [happ]
      exact List.mem_append_right v (List.mem_cons_self _ _)
    · rfl

lemma matchD12Sep_mem {sep : Char} {t ds r : List Char}
    (h : matchD12Sep sep t = some (ds, r)) : sep ∈ t := by
  unfold matchD12Sep at h
  split at h
  · rename_i d1 d2 c3 r2
    split at h
    · split at h
      · split at h
        · rename_i hc3
          subst hc3
          simp
        · cases h
      · split at h
        · rename_i hd2
          subst hd2
          simp
        · cases h
    · cases h
  · rename_i d1 d2
    split at h
    · rename_i hcond
      simp only [Bool.and_eq_true, decide_eq_true_eq] at hcond
      rw [hcond.2]
      simp
    · cases h
  · cases h

lemma match3At_none_of_no_slash {t : List Char} (h : '/' ∉ t) :
    match3At t = none := by
  unfold match3At
  cases hm : matchD12Sep '/' t with
  | none => rfl
  | some dsr =>
    exact absurd (matchD12Sep_mem hm) h

/-- `normalize_dates_in_filter` is the identity on strings with no quote,
no slash and no `T` — none of the four regexes can match. -/
lemma normalize_fixed {s : List Char}
    (hs : ∀ c ∈ s, isQuote c = false ∧ c ≠ '/' ∧ c ≠ 'T') :
    normalize_dates_in_filter s = s := by
  unfold normalize_dates_in_filter
  split
  · rfl
  · have h1 : subAll match1At (s.length + 1) s = s :=
      subAll_id_of_no_match match1At s
        (fun t ht => match1At_none_of_no_quote (fun c hc => (hs c (ht.subset hc)).1)) _
    have h2 : subAll match2At (s.length + 1) s = s :=
      subAll_id_of_no_match match2At s
        (fun t ht => match2At_none_of_no_T
          (fun hmem => (hs 'T' (ht.subset hmem)).2.2 rfl)) _
    have h3 : subAll match3At (s.length + 1) s = s :=
      subAll_id_of_no_match match3At s
        (fun t ht => match3At_none_of_no_slash
          (fun hmem => (hs '/' (ht.subset hmem)).2.1 rfl)) _
    have h4 : ∀ u : List Char, (∀ c ∈ u, isQuote c = false) →
        subAll match4At (u.length + 1) u = u := fun u hu =>
      subAll_id_of_no_match match4At u
        (fun t ht => match4At_none_of_no_quote (fun c hc => hu c (ht.subset hc))) _
    dsimp only
    rw [h1, h2, h3]
    exact h4 s (fun c hc => (hs c hc).1)

/-- C5 counterexample: on "2025-01-01T00:00:00T11:22:33" one pass of
`normalize_dates_in_filter` yields "2025-01-01T11:22:33" (the timestamp
regex consumes the first clock time, exposing a new ISO timestamp), and a
second pass strips that too, yielding "2025-01-01"; hence the function is
not idempotent. -/
theorem normalize_cex :
    normalize_dates_in_filter (("2025-01-01T00:00:00T11:22:33").toList) =
      ("2025-01-01T11:22:33").toList ∧
    normalize_dates_in_filter
        (normalize_dates_in_filter (("2025-01-01T00:00:00T11:22:33").toList)) =
      ("2025-01-01").toList ∧
    normalize_dates_in_filter
        (normalize_dates_in_filter (("2025-01-01T00:00:00T11:22:33").toList)) ≠
      normalize_dates_in_filter (("2025-01-01T00:00:00T11:22:33").toList) := by
  refine ⟨rfl, rfl, ?_⟩
  rw [show normalize_dates_in_filter (("2025-01-01T00:00:00T11:22:33").toList) =
    ("2025-01-01T11:22:33").toList from rfl]
  rw [show normalize_dates_in_filter (("2025-01-01T11:22:33").toList) =
    ("2025-01-01").toList from rfl]
  decide

/-- C5 (amended): `normalize_dates_in_filter` maps the empty string to the
empty string, and it is idempotent on strings containing no quote, no
slash and no letter T (on which none of the four transformations fires);
unrestricted idempotence fails, see the counterexample. -/
theorem normalize_amended :
    normalize_dates_in_filter [] = [] ∧
    ∀ s : List Char, (∀ c ∈ s, isQuote c = false ∧ c ≠ '/' ∧ c ≠ 'T') →
      normalize_dates_in_filter (normalize_dates_in_filter s) =
        normalize_dates_in_filter s := by
  constructor
  · rfl
  · intro s hs
    rw [normalize_fixed hs]
    exact normalize_fixed hs

/-- C5 witness: the amended idempotence at a concrete filter string. -/
theorem normalize_amended_witness :
    normalize_dates_in_filter
        (normalize_dates_in_filter (("Amount gt 500 and Zone eq A").toList)) =
      normalize_dates_in_filter (("Amount gt 500 and Zone eq A").toList) :=
  normalize_amended.2 (("Amount gt 500 and Zone eq A").toList) (by decide)


/-! ## C9: value-map normalization in `analyze` (analytics.py, ddl.py) -/


/-! ## C9: value-map normalization in `analyze` (analytics.py, ddl.py) -/

/-- `ddl.get_context_value(table, context_type, field)`: look up a DDL
Context entry by its `(table, field, context_type)` key. -/
def get_context_value (ctx : List ((String × String × String) × String))
    (table ctype field : String) : Option String :=
  (ctx.find? (fun p => p.1 = (table, field, ctype))).map Prod.snd

/-- JSON whitespace. -/
def isJsonWs (c : Char) : Bool := c = ' ' || c = '\t' || c = '\n' || c = '\r'

/-- Scan a JSON string literal after the opening quote (escape-free
fragment: a backslash makes the input fall outside the modelled set). -/
def jStrGo : List Char → List Char → Option (String × List Char)
  | [], _ => none
  | c :: rest, acc =>
    if c = '"' then some (String.mk acc.reverse, rest)
    else if c = '\\' then none
    else jStrGo rest (c :: acc)

/-- Parse a JSON string literal. -/
def parseJStr : List Char → Option (String × List Char)
  | '"' :: rest => jStrGo rest []
  | _ => none

/-- Parse the members of a JSON object after the opening brace: a
comma-separated list of `"key": "value"` pairs up to the closing brace. -/
def jPairsGo : Nat → List Char → List (String × String) →
    Option (List (String × String) × List Char)
  | 0, _, _ => none
  | fuel + 1, r, acc =>
    match parseJStr r with
    | none => none
    | some (k, r1) =>
      match r1.dropWhile isJsonWs with
      | ':' :: r2 =>
        match parseJStr (r2.dropWhile isJsonWs) with
        | none => none
        | some (v, r3) =>
          match r3.dropWhile isJsonWs with
          | ',' :: r4 => jPairsGo fuel (r4.dropWhile isJsonWs) (acc ++ [(k, v)])
          | '\x7d' :: r4 => some (acc ++ [(k, v)], r4)
          | _ => none
      | _ => none

/-- `json.loads` on the flat-object fragment: an object whose keys and
values are escape-free strings, with nothing but whitespace around it.
Anything else — in particular any input CPython rejects as malformed
JSON — yields `none`. -/
def jsonFlatObj (s : List Char) : Option (List (String × String)) :=
  match s.dropWhile isJsonWs with
  | '\x7b' :: r =>
    match r.dropWhile isJsonWs with
    | '\x7d' :: r2 => if (r2.dropWhile isJsonWs) = [] then some [] else none
    | r1 =>
      match jPairsGo (s.length + 1) r1 [] with
      | some (kvs, rest) =>
        if (rest.dropWhile isJsonWs) = [] then some kvs else none
      | none => none
  | _ => none

/-- Embedding of `_parse_value_maps` (analytics.py): `none`, the empty
string and malformed JSON give the empty mapping; a parsed object is
rebuilt by dict assignment (last value wins on a duplicate key). -/
def parse_value_maps (ctx : Option String) : List (String × String) :=
  match ctx with
  | none => []
  | some s =>
    if s = "" then []
    else
      match jsonFlatObj s.toList with
      | some kvs => kvs.foldl (fun acc kv => alistSet acc kv.1 kv.2) []
      | none => []

/-- Embedding of `_apply_normalization` (analytics.py): for each mapped
field present in the frame, replace each cell by its mapped value
(`df[field].replace(mapping)`), count the pre-replacement occurrences of
every old value, and record a note for the field when any count is
positive.  The frame is a copy; the input frame is untouched. -/
def apply_normalization (df : Frame)
    (fms : List (String × List (String × String))) : Frame × List String :=
  if fms = [] then (df, [])
  else
    fms.foldl (fun st fm =>
      let field := fm.1
      let mapping := fm.2
      if (frameCols st.1).contains field then
        let before := st.1.map (fun r => getCell r field)
        let df2 := st.1.map (fun r =>
          match getCell r field with
          | some v => alistSet r field ((alistGet mapping v).getD v)
          | none => r)
        let changed := mapping.filterMap (fun ov =>
          let count := before.count (some ov.1)
          if count > 0 then
            some (ov.1 ++ "→" ++ ov.2 ++ ": " ++ toString count)
          else none)
        if changed = [] then (df2, st.2)
        else (df2, st.2 ++ [field ++ " (" ++ String.intercalate ", " changed ++ ")"])
      else st) (df, [])

/-- First-occurrence deduplication (dict keys keep their first insertion
position; a repeated field re-assigns the same parsed value). -/
def dedupGo : List String → List String → List String
  | [], _ => []
  | x :: xs, seen =>
    if x ∈ seen then dedupGo xs seen else x :: dedupGo xs (x :: seen)

def dedupFirst (xs : List String) : List String := dedupGo xs []

/-- Embedding of `_collect_value_maps` (analytics.py): the fields, in
first-occurrence order, whose `value_map` context entry parses to a
nonempty mapping. -/
def collect_value_maps (ctx : List ((String × String × String) × String))
    (table : String) (fields : List String) :
    List (String × List (String × String)) :=
  (dedupFirst fields).filterMap (fun field =>
    let parsed := parse_value_maps (get_context_value ctx table "value_map" field)
    if parsed = [] then none else some (field, parsed))

/-- Embedding of `_format_norm_note` (analytics.py). -/
def format_norm_note (notes : List String) : String :=
  if notes = [] then "" else "\nNormalized: " ++ String.intercalate ", " notes

/-- Python `s.split(",")`: split on every comma, keeping empty pieces
(the empty string yields `[""]`). -/
def pySplitGo : List Char → List Char → List String
  | [], cur => [String.mk cur.reverse]
  | c :: rest, cur =>
    if c = ',' then String.mk cur.reverse :: pySplitGo rest []
    else pySplitGo rest (c :: cur)

def pySplit (s : String) : List String := pySplitGo s.toList []

/-- Python `str.strip()` on ASCII whitespace. -/
def pyStrip (s : String) : String :=
  String.mk (((s.toList.dropWhile isSpaceChar).reverse.dropWhile isSpaceChar).reverse)

/-- Embedding of `analyze` (analytics.py) from dataset resolution through
the value-map normalization block, on the empty-`filter` path: resolve the
entry (named datasets take precedence over the table cache, `none` when
absent); with a `groupby`, split it on commas, strip, drop empties, append
a nonempty `pivot_column`, collect the fields' value maps and — when any
exist — normalize a copy of the frame.  Every success path of `analyze`
then appends `format_norm_note` of the collected notes to its output, and
no path assigns to the stores, so the state is returned unchanged. -/
def analyze_norm_stage (st : ProcState) (dataset groupby pivot_column : String) :
    Option (Frame × List String) × ProcState :=
  (match (alistGet st.datasets dataset).orElse (fun _ => alistGet st.table_cache dataset) with
   | none => none
   | some entry =>
     let df := entry.df
     if groupby = "" then some (df, [])
     else
       let fields := ((pySplit groupby).map pyStrip).filter (fun f => f ≠ "")
       let norm_fields := fields ++ (if pivot_column = "" then [] else [pivot_column])
       let fm := collect_value_maps st.ddl_context entry.table norm_fields
       if fm = [] then some (df, [])
       else some (apply_normalization df fm), st)

lemma getCell_eq_alistGet (r : Row) (c : String) : getCell r c = alistGet r c := rfl

lemma alistGet_cons {β : Type} (x : String × β) (xs : List (String × β))
    (t' : String) :
    alistGet (x :: xs) t' = if x.1 = t' then some x.2 else alistGet xs t' := by
  simp only [alistGet, List.find?_cons]
  by_cases h : x.1 = t'
  · simp [h]
  · simp [h]

lemma alistGet_set_ne {β : Type} (c : List (String × β)) (t t' : String) (v : β)
    (h : t' ≠ t) : alistGet (alistSet c t v) t' = alistGet c t' := by
  unfold alistSet
  by_cases ha : c.any (fun p => p.1 = t) = true
  · rw [if_pos ha]
    clear ha
    induction c with
    | nil => rfl
    | cons a cs ih =>
      by_cases hat : a.1 = t
      · have h1 : (fun p => if p.1 = t then (t, v) else p) a = (t, v) := by
          simp [hat]
        simp only [List.map_cons, h1]
        rw [alistGet_cons, alistGet_cons]
        rw [if_neg (show ¬((t, v).1 = t') from fun hh => h (hh.symm))]
        rw [if_neg (show ¬(a.1 = t') from hat ▸ fun hh => h (hh.symm))]
        exact ih
      · have h1 : (fun p => if p.1 = t then (t, v) else p) a = a := by
          simp [hat]
        simp only [List.map_cons, h1]
        rw [alistGet_cons, alistGet_cons]
        by_cases hat' : a.1 = t'
        · rw [if_pos hat', if_pos hat']
        · rw [if_neg hat', if_neg hat']
          exact ih
  · rw [if_neg ha]
    clear ha
    induction c with
    | nil =>
      rw [List.nil_append, alistGet_cons]
      rw [if_neg (show ¬((t, v).1 = t') from fun hh => h (hh.symm))]
    | cons a cs ih =>
      rw [List.cons_append, alistGet_cons, alistGet_cons]
      by_cases hat' : a.1 = t'
      · rw [if_pos hat', if_pos hat']
      · rw [if_neg hat', if_neg hat']
        exact ih

lemma rep_cell (r : Row) (field : String) (m : List (String × String)) :
    getCell (match getCell r field with
      | some v => alistSet r field ((alistGet m v).getD v)
      | none => r) field
      = (getCell r field).map (fun v => (alistGet m v).getD v) := by
  cases h : getCell r field with
  | none =>
    show getCell r field = Option.map (fun v => (alistGet m v).getD v) none
    rw [h]
    rfl
  | some v =>
    show getCell (alistSet r field ((alistGet m v).getD v)) field = _
    rw [getCell_eq_alistGet, alistGet_set]
    rfl

lemma rep_cell_ne (r : Row) (field c : String) (m : List (String × String))
    (hc : c ≠ field) :
    getCell (match getCell r field with
      | some v => alistSet r field ((alistGet m v).getD v)
      | none => r) c = getCell r c := by
  cases h : getCell r field with
  | none => rfl
  | some v =>
    show getCell (alistSet r field ((alistGet m v).getD v)) c = _
    rw [getCell_eq_alistGet, alistGet_set_ne _ _ _ _ hc, getCell_eq_alistGet]

lemma apply_norm_single (df : Frame) (field : String) (m : List (String × String))
    (hcol : (frameCols df).contains field = true) :
    apply_normalization df [(field, m)] =
      (df.map (fun r =>
        match getCell r field with
        | some v => alistSet r field ((alistGet m v).getD v)
        | none => r),
       if m.filterMap (fun ov =>
            if (df.map (fun r => getCell r field)).count (some ov.1) > 0 then
              some (ov.1 ++ "→" ++ ov.2 ++ ": " ++
                toString ((df.map (fun r => getCell r field)).count (some ov.1)))
            else none) = [] then []
       else [field ++ " (" ++ String.intercalate ", "
          (m.filterMap (fun ov =>
            if (df.map (fun r => getCell r field)).count (some ov.1) > 0 then
              some (ov.1 ++ "→" ++ ov.2 ++ ": " ++
                toString ((df.map (fun r => getCell r field)).count (some ov.1)))
            else none)) ++ ")"]) := by
  simp only [apply_normalization, List.foldl_cons, List.foldl_nil]
  rw [if_neg (by simp)]
  rw [if_pos hcol]
  split
  · rfl
  · simp

/-- C9 (amended): with a groupby field carrying a `value_map` context entry
that parses to a nonempty mapping and names a column of the resolved frame,
`analyze` normalizes a copy of the frame before grouping — the mapped
column is rewritten cell-by-cell through the mapping, every other column is
untouched — and the state is returned unchanged; the per-replacement notes
are empty exactly when no variant value occurs in the frame, and
`format_norm_note` appends a trailer exactly when the notes are nonempty;
a field set whose value maps are all empty or malformed leaves the frame
and notes untouched. -/
theorem analyze_value_map_amended
    (st : ProcState) (ds g : String) (entry : DatasetEntry)
    (field : String) (m : List (String × String))
    (hds : (alistGet st.datasets ds).orElse
      (fun _ => alistGet st.table_cache ds) = some entry)
    (hfs : ((pySplit g).map pyStrip).filter (fun f => f ≠ "") = [field])
    (hm : parse_value_maps
      (get_context_value st.ddl_context entry.table "value_map" field) = m)
    (hmne : m ≠ [])
    (hcol : (frameCols entry.df).contains field = true) :
    (analyze_norm_stage st ds g "").2 = st ∧
    (analyze_norm_stage st ds g "").1 =
      some (apply_normalization entry.df [(field, m)]) ∧
    ((apply_normalization entry.df [(field, m)]).1.map
        (fun r => getCell r field) =
      entry.df.map (fun r => (getCell r field).map
        (fun v => (alistGet m v).getD v))) ∧
    (∀ c, c ≠ field →
      (apply_normalization entry.df [(field, m)]).1.map (fun r => getCell r c) =
        entry.df.map (fun r => getCell r c)) ∧
    ((apply_normalization entry.df [(field, m)]).2 = [] ↔
      ∀ p ∈ m, some p.1 ∉ entry.df.map (fun r => getCell r field)) ∧
    (format_norm_note [] = "" ∧
      ∀ ns : List String, ns ≠ [] → format_norm_note ns ≠ "") ∧
    (∀ (st2 : ProcState) (ds2 g2 p2 : String) (e2 : DatasetEntry),
      (alistGet st2.datasets ds2).orElse
        (fun _ => alistGet st2.table_cache ds2) = some e2 →
      collect_value_maps st2.ddl_context e2.table
        ((((pySplit g2).map pyStrip).filter (fun f => f ≠ "")) ++
          (if p2 = "" then [] else [p2])) = [] →
      analyze_norm_stage st2 ds2 g2 p2 = (some (e2.df, []), st2)) := by
  have hgne : ¬(g = "") := by
    intro hg
    subst hg
    rw [show ((pySplit "").map pyStrip).filter (fun f => f ≠ "") = [] from by decide]
      at hfs
    exact List.noConfusion hfs
  have hcoll : collect_value_maps st.ddl_context entry.table [field] = [(field, m)] := by
    simp only [collect_value_maps, dedupFirst, dedupGo, List.not_mem_nil,
      if_false, List.filterMap]
    rw [hm, if_neg hmne]
  have hstage : analyze_norm_stage st ds g "" =
      (some (apply_normalization entry.df [(field, m)]), st) := by
    unfold analyze_norm_stage
    rw [hds]
    dsimp only
    rw [if_neg hgne]
    rw [hfs]
    rw [show (if ("" : String) = "" then ([] : List String) else [""]) = []
      from if_pos rfl]
    rw [List.append_nil]
    rw [hcoll]
    rw [if_neg (by exact List.cons_ne_nil _ _)]
  refine ⟨by rw [hstage], by rw [hstage], ?_, ?_, ?_, ⟨rfl, ?_⟩, ?_⟩
  · rw [apply_norm_single entry.df field m hcol]
    dsimp only
    rw [List.map_map]
    exact List.map_congr_left (fun r _ => rep_cell r field m)
  · intro c hc
    rw [apply_norm_single entry.df field m hcol]
    dsimp only
    rw [List.map_map]
    exact List.map_congr_left (fun r _ => rep_cell_ne r field c m hc)
  · rw [apply_norm_single entry.df field m hcol]
    dsimp only
    constructor
    · intro h p hp
      by_cases hch : m.filterMap (fun ov =>
          if (entry.df.map (fun r => getCell r field)).count (some ov.1) > 0 then
            some (ov.1 ++ "→" ++ ov.2 ++ ": " ++
              toString ((entry.df.map (fun r => getCell r field)).count (some ov.1)))
          else none) = []
      · have hnone := (List.filterMap_eq_nil_iff.mp hch) p hp
        by_cases hcnt : (entry.df.map (fun r => getCell r field)).count (some p.1) > 0
        · rw [if_pos hcnt] at hnone
          exact Option.noConfusion hnone
        · intro hmem
          exact hcnt (List.count_pos_iff.mpr hmem)
      · rw [if_neg hch] at h
        exact absurd h (List.cons_ne_nil _ _)
    · intro hall
      have hch : m.filterMap (fun ov =>
          if (entry.df.map (fun r => getCell r field)).count (some ov.1) > 0 then
            some (ov.1 ++ "→" ++ ov.2 ++ ": " ++
              toString ((entry.df.map (fun r => getCell r field)).count (some ov.1)))
          else none) = [] := by
        apply List.filterMap_eq_nil_iff.mpr
        intro p hp
        rw [if_neg]
        intro hcnt
        exact hall p hp (List.count_pos_iff.mp hcnt)
      rw [if_pos hch]
  · intro ns hns
    unfold format_norm_note
    rw [if_neg hns]
    intro hcontra
    have := congrArg String.data hcontra
    rw [String.data_append] at this
    exact List.noConfusion this
  · intro st2 ds2 g2 p2 e2 hres hc
    unfold analyze_norm_stage
    rw [hres]
    dsimp only
    by_cases hg2 : g2 = ""
    · rw [if_pos hg2]
    · rw [if_neg hg2]
      rw [hc]
      rw [if_pos rfl]

/-- A dataset whose `Region` column holds no variant value of the map. -/
def entryC9 : DatasetEntry :=
  ⟨[[("Region", "South")], [("Region", "East")]], "T", 2, "", none, none, "id"⟩

def stC9 : ProcState :=
  ⟨[], [], [(("T", "Region", "value_map"), "\x7b\"N\": \"North\"\x7d")], none, [],
    [], none, [], [("sales", entryC9)], none, "t1"⟩

/-- A dataset in which the variant value `N` does occur. -/
def entryC9w : DatasetEntry :=
  ⟨[[("Region", "N")], [("Region", "South")]], "T", 2, "", none, none, "id"⟩

def stC9w : ProcState :=
  ⟨[], [], [(("T", "Region", "value_map"), "\x7b\"N\": \"North\"\x7d")], none, [],
    [], none, [], [("sales", entryC9w)], none, "t1"⟩

/-- C9 counterexample: the `Region` value map `\x7b"N": "North"\x7d` parses
to a nonempty mapping and `Region` is the groupby field, yet no `Normalized:`
trailer is produced — the frame holds no variant value, so every replacement
count is zero, the notes stay empty and `_format_norm_note` returns the
empty string. -/
theorem analyze_norm_cex :
    parse_value_maps
      (get_context_value stC9.ddl_context "T" "value_map" "Region") =
      [("N", "North")] ∧
    analyze_norm_stage stC9 "sales" "Region" "" =
      (some ([[("Region", "South")], [("Region", "East")]], []), stC9) ∧
    format_norm_note [] = "" := ⟨rfl, rfl, rfl⟩

/-- C9 witness: the amended theorem at a frame where the variant `N`
occurs. -/
theorem analyze_value_map_amended_witness :
    (analyze_norm_stage stC9w "sales" "Region" "").2 = stC9w ∧
    (analyze_norm_stage stC9w "sales" "Region" "").1 =
      some (apply_normalization entryC9w.df [("Region", [("N", "North")])]) :=
  ⟨(analyze_value_map_amended stC9w "sales" "Region" entryC9w "Region"
      [("N", "North")] rfl (by decide) rfl (by decide) (by decide)).1,
   (analyze_value_map_amended stC9w "sales" "Region" entryC9w "Region"
      [("N", "North")] rfl (by decide) rfl (by decide) (by decide)).2.1⟩


end FMSpec
